import Mathlib

/-!
Verification of the news fetch/enrich/summarize pipeline
(`Slider_Bot_News/backend/bot_news_optimized.py` and
`Slider_Bot_News/backend/app.py`) against its natural-language
specification.

Texts are modelled as lists of characters (`Str`).  Python floats are
modelled as rationals, Python dicts as insertion-ordered association
lists, and the external collaborators (the headline API, the HTTP
session, the BeautifulSoup extractor and the VADER lexicon) as explicit
oracle parameters.  Python's stable `sorted` / `list.sort` is modelled
by `List.insertionSort`, which is stable.
-/

namespace News

open List in
/-- Texts are lists of characters. -/
abbrev Str := List Char

open scoped List

/-- Character class of the compiled regex `_WORD_RE = [A-Za-z0-9']+`:
ASCII letters, digits, and the apostrophe. -/
def isWordChar (c : Char) : Bool :=
  (65 ≤ c.toNat && c.toNat ≤ 90) || (97 ≤ c.toNat && c.toNat ≤ 122) ||
  (48 ≤ c.toNat && c.toNat ≤ 57) || c.toNat == 39

/-- Whitespace recognised by Python `str.strip` / `str.split` / `\s` on
ASCII text: space, tab, newline, carriage return, vertical tab, form feed. -/
def isPySpace (c : Char) : Bool :=
  c.toNat == 32 || c.toNat == 9 || c.toNat == 10 || c.toNat == 13 ||
  c.toNat == 11 || c.toNat == 12

/-- Python `str.lower` restricted to ASCII (the word regex is ASCII-only). -/
def pyLower (c : Char) : Char :=
  if 65 ≤ c.toNat && c.toNat ≤ 90 then Char.ofNat (c.toNat + 32) else c

/-- Maximal runs of characters satisfying `p`, in order; models
`re.findall` of a `[class]+` pattern and `str.split()` (with the
complement class).  Characters outside `p` separate the runs.
Structurally recursive on a fuel argument so the kernel can evaluate
it; each step strictly shortens the text, so `length` fuel always
suffices. -/
def runsByF (p : Char → Bool) : Nat → Str → List Str
  | 0, _ => []
  | _, [] => []
  | fuel + 1, c :: cs =>
    if p c then
      (c :: cs.takeWhile p) :: runsByF p fuel (cs.dropWhile p)
    else
      runsByF p fuel cs

def runsBy (p : Char → Bool) (l : Str) : List Str := runsByF p l.length l

/-- Python `text.split()` with no argument: whitespace runs are
separators, empty fragments are dropped. -/
def pySplitWs (l : Str) : List Str := runsBy (fun c => !isPySpace c) l

/-- Python `str.strip()`: drop leading and trailing whitespace. -/
def pyStrip (l : Str) : Str :=
  ((l.dropWhile isPySpace).reverse.dropWhile isPySpace).reverse

/-- The static stopword set `_STOPWORDS` of the source, verbatim. -/
def stopwords : List Str :=
  (["a","an","and","the","to","of","in","on","for","at","by","from","with","as",
    "is","are","was","were","be","been","being","that","this","it","its","if",
    "but","or","not","no","so","than","then","too","very","can","could","should",
    "would","may","might","will","shall","into","about","over","after","before",
    "up","down","out","off","only","just","also","more","most","other","some",
    "such","any","each","few","both","many","much","own","same"]).map String.data

/-- `_fast_words(text)`: lowercase, take maximal `[A-Za-z0-9']+` runs,
drop stopwords.  (The `if w` truthiness test of the source is vacuous:
regex matches are nonempty.) -/
def fastWords (text : Str) : List Str :=
  (runsBy isWordChar (text.map pyLower)).filter
    (fun w => !w.isEmpty && !stopwords.contains w)

/-- One step of `_TAG_STRIP_RE.sub("", text)` with `_TAG_STRIP_RE =
`<[^>]+>``: at a `<`, the greedy `[^>]+` runs to the first later `>`
(at least one character in between); unmatched `<` is kept.  `re.sub`
replaces non-overlapping leftmost matches. -/
def tagStripF : Nat → Str → Str
  | 0, _ => []
  | _, [] => []
  | fuel + 1, c :: cs =>
    if c == '<' then
      match cs.dropWhile (fun d => !(d == '>')) with
      | d :: rest =>
        if cs.takeWhile (fun d => !(d == '>')) = [] then
          c :: tagStripF fuel cs
        else if d == '>' then
          tagStripF fuel rest
        else
          c :: tagStripF fuel cs
      | [] => c :: tagStripF fuel cs
    else
      c :: tagStripF fuel cs

def tagStrip (l : Str) : Str := tagStripF l.length l

/-- Models the Python stdlib `html.unescape` on inputs restricted to the
five basic character references (`&amp;` `&lt;` `&gt;` `&quot;`
`&#39;`); other text is returned unchanged.  The full HTML5 entity
table of the stdlib is outside the program being verified. -/
def unescapeEntF : Nat → Str → Str
  | 0, _ => []
  | _, [] => []
  | fuel + 1, c :: cs =>
    if c == '&' then
      if cs.take 4 = ("amp;".data) then '&' :: unescapeEntF fuel (cs.drop 4)
      else if cs.take 3 = ("lt;".data) then '<' :: unescapeEntF fuel (cs.drop 3)
      else if cs.take 3 = ("gt;".data) then '>' :: unescapeEntF fuel (cs.drop 3)
      else if cs.take 5 = ("quot;".data) then '"' :: unescapeEntF fuel (cs.drop 5)
      else if cs.take 4 = ("#39;".data) then
        Char.ofNat 39 :: unescapeEntF fuel (cs.drop 4)
      else c :: unescapeEntF fuel cs
    else c :: unescapeEntF fuel cs

def unescapeEnt (l : Str) : Str := unescapeEntF l.length l

/-- The normalisation `_fast_sentences` performs before splitting:
strip HTML tags, unescape entities. -/
def normalizeHtml (text : Str) : Str := unescapeEnt (tagStrip text)

def isSentPunct (c : Char) : Bool := c == '.' || c == '!' || c == '?'

/-- `_SENT_SPLIT_RE.split`, pattern `(?<=[.!?])\s+`: a fragment ends at a
sentence-final punctuation character that is followed by whitespace;
the (greedy) whitespace run is consumed.  `acc` holds the current
fragment reversed. -/
def sentSplitAuxF : Nat → Str → Str → List Str
  | 0, acc, _ => [acc.reverse]
  | _, acc, [] => [acc.reverse]
  | fuel + 1, acc, [c] => sentSplitAuxF fuel (c :: acc) []
  | fuel + 1, acc, c :: c' :: cs =>
    if isSentPunct c && isPySpace c' then
      (acc.reverse ++ [c]) ::
        sentSplitAuxF fuel [] ((c' :: cs).dropWhile isPySpace)
    else
      sentSplitAuxF fuel (c :: acc) (c' :: cs)

def sentSplit (l : Str) : List Str := sentSplitAuxF l.length [] l

/-- `_fast_sentences(text)`: strip tags, unescape entities, strip
whitespace, split into sentences, strip each, keep fragments with at
least 3 whitespace-separated tokens. -/
def fastSentences (text : Str) : List Str :=
  ((sentSplit (pyStrip (normalizeHtml text))).map pyStrip).filter
    (fun s => 3 ≤ (pySplitWs s).length)

/-- Python `" ".join(l)`. -/
def joinSp (l : List Str) : Str := List.intercalate [' '] l

/-- Number of occurrences of word `w` in the word list of `text`
(the value `freq[w]` before normalisation). -/
def wordCount (t : Str) (w : Str) : Nat := (fastWords t).count w

/-- `max(freq.values())`: the largest single-word occurrence count. -/
def maxFreq (t : Str) : Nat := ((fastWords t).map (wordCount t)).foldr Nat.max 0

/-- The normalised relative frequency `freq.get(w, 0.0)` after
`freq[k] = freq[k] / max_f`; a word absent from the text gets 0.
Written with `mkRat` (the exact rational `count / max_f`, equal to the
division by `freqQ_eq_div`) so the kernel can evaluate it. -/
def freqQ (t : Str) (w : Str) : ℚ := mkRat (wordCount t w) (maxFreq t)

theorem freqQ_eq_div (t w : Str) :
    freqQ t w = (wordCount t w : ℚ) / (maxFreq t : ℚ) := by
  unfold freqQ
  rw [Rat.mkRat_eq_div]
  norm_num

/-- Score of a sentence: `sum(freq.get(w, 0.0) for w in sw)` over the
sentence's own word list.  All summands share the denominator
`maxFreq t`, so the exact value is the single fraction
`(sum of counts) / maxFreq t`, written with `mkRat` so the kernel can
evaluate it; `scoreOf_eq_sum_freqQ` proves it equal to the source's
summand-by-summand form. -/
def scoreOf (t : Str) (s : Str) : ℚ :=
  mkRat (((fastWords s).map (wordCount t)).sum) (maxFreq t)

theorem mkRat_natSum (M : Nat) :
    ∀ l : List Nat, mkRat (l.sum : Int) M =
      (l.map (fun c : Nat => mkRat (c : Int) M)).sum := by
  intro l
  induction l with
  | nil => simp [Rat.mkRat_eq_div]
  | cons c l ih =>
    simp only [List.sum_cons, List.map_cons]
    rw [← ih, Rat.mkRat_eq_div, Rat.mkRat_eq_div, Rat.mkRat_eq_div]
    push_cast
    rw [div_add_div_same]

theorem scoreOf_eq_sum_freqQ (t s : Str) :
    scoreOf t s = ((fastWords s).map (freqQ t)).sum := by
  unfold scoreOf freqQ
  rw [mkRat_natSum (maxFreq t) ((fastWords s).map (wordCount t)),
    List.map_map]
  rfl

/-- A sentence enters the score dict iff its word list has at least 3
entries (`if len(sw) < 3: continue`). -/
def scorable (s : Str) : Bool := 3 ≤ (fastWords s).length

/-- Python `list.index(x)`: position of the first occurrence. -/
def idxOf {α : Type} [DecidableEq α] : List α → α → Nat
  | [], _ => 0
  | a :: l, x => if x = a then 0 else idxOf l x + 1

theorem idxOf_cons_self {α : Type} [DecidableEq α] (a : α) (l : List α) :
    idxOf (a :: l) a = 0 := by
  simp [idxOf]

theorem idxOf_cons_ne {α : Type} [DecidableEq α] (a : α) (l : List α) {x : α}
    (h : x ≠ a) : idxOf (a :: l) x = idxOf l x + 1 := by
  simp [idxOf, h]

/-- First-occurrence deduplication: the key order of a Python dict
filled by iterating a list. -/
def dedupF {α : Type} [DecidableEq α] : List α → List α
  | [] => []
  | x :: xs => x :: (dedupF xs).filter (fun y => y != x)

/-- The keys of the `scores` dict, in insertion order: distinct
scorable sentences, ordered by first occurrence. -/
def sKeys (t : Str) : List Str := dedupF ((fastSentences t).filter scorable)

/-- The preorder of the stable descending sort
`sorted(scores, key=scores.get, reverse=True)`: `a` may precede `b`
iff `a`'s score is at least `b`'s. -/
def rScore (t : Str) (a b : Str) : Prop := scoreOf t b ≤ scoreOf t a

instance (t : Str) : DecidableRel (rScore t) := fun a b =>
  inferInstanceAs (Decidable (_ ≤ _))

instance (t : Str) : IsTotal Str (rScore t) :=
  ⟨fun a b => le_total (scoreOf t b) (scoreOf t a)⟩

instance (t : Str) : IsTrans Str (rScore t) :=
  ⟨fun _ _ _ h h' => le_trans h' h⟩

/-- The order of the final coherence re-sort
`sorted(..., key=lambda s: sentences.index(s))`. -/
def rIdx (t : Str) (a b : Str) : Prop :=
  idxOf (fastSentences t) a ≤ idxOf (fastSentences t) b

instance (t : Str) : DecidableRel (rIdx t) := fun a b =>
  inferInstanceAs (Decidable (_ ≤ _))

instance (t : Str) : IsTotal Str (rIdx t) :=
  ⟨fun a b => Nat.le_total _ _⟩

instance (t : Str) : IsTrans Str (rIdx t) :=
  ⟨fun _ _ _ h h' => Nat.le_trans h h'⟩

/-- The top `n` sentence keys by score, ties resolved towards earlier
insertion order by stability of the sort. -/
def topKeys (t : Str) (n : Nat) : List Str :=
  (List.insertionSort (rScore t) (sKeys t)).take n

/-- The list of sentences `summarizeText` joins, factored out of the
string result: mirrors every early return of the source
(`if not text`, `if not sentences`, `if not words`, `if not scores`)
and the two-stage sort of the main path. -/
def summarizeSelected (t : Str) (n : Nat) : List Str :=
  if t = [] then []
  else if fastSentences t = [] then []
  else if fastWords t = [] then (fastSentences t).take n
  else if sKeys t = [] then (fastSentences t).take n
  else List.insertionSort (rIdx t) (topKeys t n)

/-- `summarizeText(text, max_sentences)`. -/
def summarizeText (t : Str) (n : Nat) : Str := joinSp (summarizeSelected t n)

inductive SentLabel where
  | positive
  | negative
  | neutral
deriving DecidableEq, Repr

/-- The part of the VADER score dict the pipeline consumes: the
compound score together with the label the source attaches. -/
structure Sentiment where
  compound : ℚ
  label : SentLabel
deriving DecidableEq, Repr

/-- `analyze_sentiment(text)`.  The lexicon scorer is the external
oracle `vader`: `none` models an unavailable VADER resource
(`_VADER_SIA is None`), `some f` models `polarity_scores(...)["compound"]`.
`text = none` models Python `None`. -/
def analyze_sentiment (vader : Option (Str → ℚ)) (text : Option Str) : Sentiment :=
  match text with
  | none => ⟨0, .neutral⟩
  | some t =>
    if t.isEmpty then ⟨0, .neutral⟩
    else
      match vader with
      | none => ⟨0, .neutral⟩
      | some f =>
        let comp := f (t.take 5000)
        ⟨comp, if (5 : ℚ) / 100 ≤ comp then .positive
          else if comp ≤ -((5 : ℚ) / 100) then .negative
          else .neutral⟩

/-! SHA-1, the `_hash` helper: `hashlib.sha1(s.encode("utf-8", "ignore")).hexdigest()`.
Words are naturals reduced modulo `2 ^ 32`. -/

def w32 (n : Nat) : Nat := n % 4294967296

def rotl (b n : Nat) : Nat := w32 ((n <<< b) ||| (n >>> (32 - b)))

/-- UTF-8 encoding of one character.  Lean `Char` excludes surrogates,
so the `"ignore"` error handler never fires. -/
def utf8Bytes (c : Char) : List Nat :=
  let n := c.toNat
  if n < 128 then [n]
  else if n < 2048 then [192 ||| (n >>> 6), 128 ||| (n &&& 63)]
  else if n < 65536 then
    [224 ||| (n >>> 12), 128 ||| ((n >>> 6) &&& 63), 128 ||| (n &&& 63)]
  else
    [240 ||| (n >>> 18), 128 ||| ((n >>> 12) &&& 63),
     128 ||| ((n >>> 6) &&& 63), 128 ||| (n &&& 63)]

def utf8Encode (s : Str) : List Nat := s.flatMap utf8Bytes

/-- Big-endian byte list of `n`, `k` bytes long. -/
def beBytes : Nat → Nat → List Nat
  | 0, _ => []
  | k + 1, n => (n >>> (8 * k)) % 256 :: beBytes k n

/-- SHA-1 message padding: a `0x80` byte, zeros, then the 64-bit
big-endian bit length, to a multiple of 64 bytes. -/
def sha1Pad (msg : List Nat) : List Nat :=
  let z := (119 - msg.length % 64) % 64
  msg ++ 128 :: List.replicate z 0 ++ beBytes 8 (8 * msg.length)

/-- Split into 64-byte chunks. -/
def chunks64 : List Nat → List (List Nat)
  | [] => []
  | b :: l => (b :: l).take 64 :: chunks64 ((b :: l).drop 64)
termination_by l => l.length
decreasing_by simp [List.length_drop]; omega

/-- Big-endian 32-bit words of a chunk. -/
def beWords : List Nat → List Nat
  | b0 :: b1 :: b2 :: b3 :: rest =>
    ((b0 <<< 24) ||| (b1 <<< 16) ||| (b2 <<< 8) ||| b3) :: beWords rest
  | _ => []

/-- Message-schedule extension: append
`rotl 1 (w[i-3] xor w[i-8] xor w[i-14] xor w[i-16])` `k` times. -/
def sha1Extend (ws : List Nat) : Nat → List Nat
  | 0 => ws
  | k + 1 =>
    let g := fun (j : Nat) => ws.getD (ws.length - j) 0
    sha1Extend (ws ++ [rotl 1 (g 3 ^^^ g 8 ^^^ g 14 ^^^ g 16)]) k

def sha1F (i b c d : Nat) : Nat :=
  if i < 20 then (b &&& c) ||| ((4294967295 ^^^ b) &&& d)
  else if i < 40 then b ^^^ c ^^^ d
  else if i < 60 then (b &&& c) ||| (b &&& d) ||| (c &&& d)
  else b ^^^ c ^^^ d

def sha1K (i : Nat) : Nat :=
  if i < 20 then 1518500249
  else if i < 40 then 1859775393
  else if i < 60 then 2400959708
  else 3395469782

/-- One compression round. -/
def sha1Round (st : Nat × Nat × Nat × Nat × Nat) (iw : Nat × Nat) :
    Nat × Nat × Nat × Nat × Nat :=
  let (a, b, c, d, e) := st
  let (i, w) := iw
  (w32 (rotl 5 a + sha1F i b c d + e + sha1K i + w), a, rotl 30 b, c, d)

/-- Process one 64-byte chunk. -/
def sha1Chunk (h : Nat × Nat × Nat × Nat × Nat) (chunk : List Nat) :
    Nat × Nat × Nat × Nat × Nat :=
  let ws := sha1Extend (beWords chunk) 64
  let (h0, h1, h2, h3, h4) := h
  let (a, b, c, d, e) :=
    (List.zip (List.range 80) ws).foldl sha1Round (h0, h1, h2, h3, h4)
  (w32 (h0 + a), w32 (h1 + b), w32 (h2 + c), w32 (h3 + d), w32 (h4 + e))

def hexDigit (n : Nat) : Char :=
  if n < 10 then Char.ofNat (48 + n) else Char.ofNat (87 + n)

/-- Lowercase hex of one 32-bit word, 8 digits. -/
def hexWord32 (n : Nat) : Str :=
  [hexDigit ((n >>> 28) % 16), hexDigit ((n >>> 24) % 16),
   hexDigit ((n >>> 20) % 16), hexDigit ((n >>> 16) % 16),
   hexDigit ((n >>> 12) % 16), hexDigit ((n >>> 8) % 16),
   hexDigit ((n >>> 4) % 16), hexDigit (n % 16)]

/-- `_hash(s)`: the 40-character lowercase hex SHA-1 digest of the
UTF-8 encoding of `s`. -/
def sha1Hex (s : Str) : Str :=
  let (h0, h1, h2, h3, h4) :=
    (chunks64 (sha1Pad (utf8Encode s))).foldl sha1Chunk
      (1732584193, 4023233417, 2562383102, 271733878, 3285377520)
  hexWord32 h0 ++ hexWord32 h1 ++ hexWord32 h2 ++ hexWord32 h3 ++ hexWord32 h4

/-! The fetch/enrich pipeline of `getNews` and its collaborators. -/

/-- Python `x or d` where `x` is an optional string: `None` and `""`
are falsy. -/
def pyOrOpt (o : Option Str) (d : Str) : Str :=
  match o with
  | none => d
  | some s => if s = [] then d else s

/-- Python `s or d` for strings. -/
def pyOrS (s d : Str) : Str := if s = [] then d else s

/-- Ordered-dict lookup: first binding of the key wins. -/
def dictGet {β : Type} (fs : List (Str × β)) (k : Str) : Option β :=
  (fs.find? (fun p => p.1 == k)).map (fun p => p.2)

/-- Python dict assignment `d[k] = v`: overwrite in place, else append. -/
def dictInsert {β : Type} (fs : List (Str × β)) (k : Str) (v : β) :
    List (Str × β) :=
  if (dictGet fs k).isSome then
    fs.map (fun p => if p.1 == k then (k, v) else p)
  else fs ++ [(k, v)]

def unknownName : Str := "Unknown".data

def noTitle : Str := "No Title".data

/-- The JSON value found under `"source"` in a headline item:
an object (with an optional string `name` field), a string, or
null/absent. -/
inductive SourceVal where
  | null
  | str (s : Str)
  | obj (fields : List (Str × Str))
deriving DecidableEq

/-- `(item.get("source") or {}).get("name") or "Unknown"`: falsy source
values (`None`, `""`, `{}`) degrade to `"Unknown"`; a truthy non-dict
(a nonempty string) has no `.get` method, raising `AttributeError`. -/
def sourceName : SourceVal → Except Unit Str
  | .null => .ok unknownName
  | .str s => if s = [] then .ok unknownName else .error ()
  | .obj fs =>
    if fs = [] then .ok unknownName
    else
      match dictGet fs ("name".data) with
      | none => .ok unknownName
      | some v => .ok (pyOrS v unknownName)

/-- One headline item of the API's `articles` array, with the fields
the pipeline reads. -/
structure GItem where
  url : Option Str
  title : Option Str
  description : Option Str
  source : SourceVal
deriving DecidableEq

/-- `it.get("url") or ""`. -/
def itemUrl (it : GItem) : Str := pyOrOpt it.url []

/-- Outcome of one `_gnews_request` call, as an oracle value:
`exn` models a transport error or malformed JSON (absorbed by the
per-category `except`), `badStatus` a non-200 response (the function
returns `[]`), `ok` a parsed `articles` list. -/
inductive ApiResp where
  | exn
  | badStatus
  | ok (items : List GItem)

/-- The inner accumulation loop of `getNews` step 1: walk one category's
items, skipping empty or already-seen urls, appending the rest and
recording their urls. -/
def addItems : List GItem → List Str → List GItem → List GItem × List Str
  | acc, seen, [] => (acc, seen)
  | acc, seen, it :: its =>
    let u := itemUrl it
    if u = [] || seen.contains u then addItems acc seen its
    else addItems (acc ++ [it]) (u :: seen) its

/-- The outer category loop of `getNews` step 1; `i` counts API requests
so the oracle can answer each request individually. -/
def collectAux (api : Nat → ApiResp) :
    Nat → List GItem → List Str → List Str → List GItem × List Str
  | _, acc, seen, [] => (acc, seen)
  | i, acc, seen, _c :: cs =>
    match api i with
    | .ok items =>
      let p := addItems acc seen items
      collectAux api (i + 1) p.1 p.2 cs
    | _ => collectAux api (i + 1) acc seen cs

/-- The headline list `getNews` accumulates over all categories. -/
def collectHeadlines (api : Nat → ApiResp) (cats : List Str) : List GItem :=
  (collectAux api 0 [] [] cats).1

/-- All items of the successful API responses, concatenated in request
order: the reference stream against which dedup order is stated. -/
def flatItems (api : Nat → ApiResp) : Nat → List Str → List GItem
  | _, [] => []
  | i, _c :: cs =>
    (match api i with | .ok items => items | _ => []) ++ flatItems api (i + 1) cs

/-- Specification-level first-wins dedup against a seen set. -/
def dedupByUrl (seen : List Str) : List GItem → List GItem
  | [] => []
  | it :: its =>
    let u := itemUrl it
    if u = [] || seen.contains u then dedupByUrl seen its
    else it :: dedupByUrl (u :: seen) its

/-- The seen set after walking a list of items. -/
def seenAfter (seen : List Str) : List GItem → List Str
  | [] => seen
  | it :: its =>
    let u := itemUrl it
    if u = [] || seen.contains u then seenAfter seen its
    else seenAfter (u :: seen) its

/-- The dict `fetchArticle` caches: `{"text": ..., "image": ...}`. -/
structure FetchResult where
  text : Str
  image : Option Str
deriving DecidableEq

/-- Outcome of `_SESSION.get(url, ...)` (after the adapter's internal
retries): an exception, or a final response with status and body. -/
inductive NetOutcome where
  | exn
  | resp (status : Nat) (page : Str)

/-- Process-wide fetch state: the `_CACHE` dict plus a counter of
network requests actually issued. -/
structure FetchSt where
  cache : List (Str × FetchResult)
  netCalls : Nat
deriving DecidableEq

/-- The try-block of `fetchArticle` on a cache miss.  `net` is the HTTP
session oracle; `extract` models `_extract_article_text` (BeautifulSoup
DOM extraction), whose exceptions are also caught here.  Every failure
degrades to `{"text": "", "image": None}`. -/
def fetchCompute (net : Str → NetOutcome)
    (extract : Str → Except Unit (Str × Option Str)) (url : Str) : FetchResult :=
  match net url with
  | .exn => ⟨[], none⟩
  | .resp status page =>
    if status ≠ 200 then ⟨[], none⟩
    else
      match extract page with
      | .error _ => ⟨[], none⟩
      | .ok (t, img) => ⟨t, img⟩

/-- `fetchArticle(url)`: serve from `_CACHE` when present, otherwise
fetch, store the result (success or failure) in the cache, and return
it.  Total: no exception escapes this boundary. -/
def fetchArticle (net : Str → NetOutcome)
    (extract : Str → Except Unit (Str × Option Str)) (url : Str)
    (st : FetchSt) : FetchResult × FetchSt :=
  match dictGet st.cache url with
  | some r => (r, st)
  | none =>
    let r := fetchCompute net extract url
    (r, ⟨dictInsert st.cache url r, st.netCalls + 1⟩)

/-- The per-headline record `_work` builds (the fallback records of
step 4 carry no `"text"` key, hence the optional field). -/
structure Enriched where
  title : Str
  source : Str
  summary : Str
  text : Option Str
  url : Str
  sentiment : Sentiment
deriving DecidableEq

/-- The worker `_work(item)` threading the shared cache: source-name
extraction happens before the fetch and may raise (a raising worker
produces `.error`, to be re-raised by `ex.map` iteration). -/
def workOne (net : Str → NetOutcome)
    (extract : Str → Except Unit (Str × Option Str))
    (vader : Option (Str → ℚ)) (it : GItem) (st : FetchSt) :
    Except Unit Enriched × FetchSt :=
  match sourceName it.source with
  | .error e => (.error e, st)
  | .ok src =>
    let url := itemUrl it
    let title := pyOrOpt it.title noTitle
    let desc := pyOrOpt it.description []
    let p := fetchArticle net extract url st
    let text := pyOrS p.1.text (pyOrS desc title)
    (.ok ⟨title, src, summarizeText text 3, some text, url,
       analyze_sentiment vader (some text)⟩, p.2)

/-- The cache-free denotation of one worker: what `_work(item)` returns
whenever the cache holds only values the network would produce anyway. -/
def pureWork (net : Str → NetOutcome)
    (extract : Str → Except Unit (Str × Option Str))
    (vader : Option (Str → ℚ)) (it : GItem) : Except Unit Enriched :=
  match sourceName it.source with
  | .error e => .error e
  | .ok src =>
    let url := itemUrl it
    let title := pyOrOpt it.title noTitle
    let desc := pyOrOpt it.description []
    let art := fetchCompute net extract url
    let text := pyOrS art.text (pyOrS desc title)
    .ok ⟨title, src, summarizeText text 3, some text, url,
      analyze_sentiment vader (some text)⟩

/-- Thread-pool execution: workers complete in schedule order `π`
(a permutation of the item indices), threading the shared `_CACHE`;
each completion records `(index, result)`. -/
def runWorkers (net : Str → NetOutcome)
    (extract : Str → Except Unit (Str × Option Str))
    (vader : Option (Str → ℚ)) (items : List GItem) (st : FetchSt) :
    List Nat → List (Nat × Except Unit Enriched)
  | [] => []
  | i :: rest =>
    match items.get? i with
    | none => runWorkers net extract vader items st rest
    | some it =>
      let p := workOne net extract vader it st
      (i, p.1) :: runWorkers net extract vader items p.2 rest

def lookupRes (done : List (Nat × Except Unit Enriched)) (i : Nat) :
    Option (Except Unit Enriched) :=
  (done.find? (fun p => p.1 == i)).map (fun p => p.2)

/-- Iterating `ex.map(_work, chosen)`: results are yielded in submission
order regardless of completion order; a worker's exception is re-raised
at its position, aborting the whole collection.  (The `if res:` guard
keeps every non-raising result: `_work` returns a nonempty dict,
which is always truthy.) -/
def collectRes (done : List (Nat × Except Unit Enriched)) :
    Nat → List GItem → Except Unit (List Enriched)
  | _, [] => .ok []
  | i, _ :: its =>
    match lookupRes done i with
    | none => collectRes done (i + 1) its
    | some (.error e) => .error e
    | some (.ok r) => (collectRes done (i + 1) its).map (fun l => r :: l)

/-- Step 3 of `getNews`: run the pool under schedule `π`, collect in
submission order. -/
def enrichCollect (net : Str → NetOutcome)
    (extract : Str → Except Unit (Str × Option Str))
    (vader : Option (Str → ℚ)) (items : List GItem) (st : FetchSt)
    (sched : List Nat) : Except Unit (List Enriched) :=
  collectRes (runWorkers net extract vader items st sched) 0 items

/-- Python `<` on strings: lexicographic by code point. -/
def strLtB : Str → Str → Bool
  | [], [] => false
  | [], _ :: _ => true
  | _ :: _, [] => false
  | a :: as, b :: bs =>
    if a.toNat < b.toNat then true
    else if b.toNat < a.toNat then false
    else strLtB as bs

/-- Python `<` on the pair `(d["source"], _hash(d["title"]))`. -/
def pairLtB (p q : Str × Str) : Bool :=
  strLtB p.1 q.1 || (p.1 == q.1 && strLtB p.2 q.2)

def keyOf (e : Enriched) : Str × Str := (e.source, sha1Hex e.title)

/-- The preorder of the final stable sort
`out.sort(key=lambda d: (d["source"], _hash(d["title"])))`. -/
def rKey (a b : Enriched) : Prop := pairLtB (keyOf b) (keyOf a) = false

instance : DecidableRel rKey := fun a b =>
  inferInstanceAs (Decidable (_ = _))

/-- Step 4 of `getNews`: headline-only records when enrichment
aggregated nothing; source-name extraction can still raise here. -/
def fallbackRecords (hs : List GItem) (ff : Nat) : Except Unit (List Enriched) :=
  (hs.take (max 5 ff)).mapM (fun it =>
    (sourceName it.source).map (fun src =>
      ⟨pyOrOpt it.title noTitle, src, pyOrOpt it.description [], none,
       itemUrl it, ⟨0, .neutral⟩⟩))

/-- `getNews(...)` over the oracles: collect headlines, enrich all of
them (`chosen = headlines`) under worker schedule `sched` starting from
process state `st`, fall back to headline-only records if the aggregate
is empty, and sort deterministically. -/
def getNews (api : Nat → ApiResp) (net : Str → NetOutcome)
    (extract : Str → Except Unit (Str × Option Str))
    (vader : Option (Str → ℚ)) (cats : List Str) (ff : Nat) (st : FetchSt)
    (sched : List Nat) : Except Unit (List Enriched) :=
  let headlines := collectHeadlines api cats
  match enrichCollect net extract vader headlines st sched with
  | .error e => .error e
  | .ok out =>
    if out = [] ∧ headlines ≠ [] then
      match fallbackRecords headlines ff with
      | .error e => .error e
      | .ok fb => .ok (List.insertionSort rKey fb)
    else .ok (List.insertionSort rKey out)

/-! The `/send` endpoint of `app.py`. -/

def requiredKeys : List String :=
  ["email", "name", "preferences", "api_key", "gmail_user", "gmail_pass"]

/-- The keyword arguments the call site in `send_news` passes to
`fetch_and_email_news`. -/
def sendCallKwargs : List String :=
  ["email", "name", "preferences", "api_key", "gmail_user", "gmail_pass"]

/-- The parameter names `fetch_and_email_news` accepts. -/
def feenAccepted : List String :=
  ["recipient", "name", "params", "api_key", "per_category", "fetch_full",
   "parallel_workers", "timezone_pref"]

/-- The parameters of `fetch_and_email_news` without default values. -/
def feenRequired : List String := ["recipient", "name", "params", "api_key"]

/-- Python keyword-argument binding: every provided keyword must name an
accepted parameter and every defaultless parameter must be provided;
otherwise the call raises `TypeError`. -/
def bindsOk (accepted required provided : List String) : Bool :=
  provided.all (accepted.contains ·) && required.all (provided.contains ·)

inductive HttpResp where
  | success
  | badRequest
  | serverError
deriving DecidableEq, Repr

/-- The `send_news` handler over the set of keys present in the request
JSON (field values do not influence the modelled control path).
Missing required fields give 400; otherwise the handler calls
`fetch_and_email_news` with `sendCallKwargs` — a call Python can bind
only if `bindsOk`, else the `TypeError` is caught by the blanket
`except` and answered with 500.  The 200 success body is returned when
the call binds and completes. -/
def send_news (dataKeys : List String) : HttpResp :=
  if requiredKeys.all (dataKeys.contains ·) then
    if bindsOk feenAccepted feenRequired sendCallKwargs then .success
    else .serverError
  else .badRequest

/-! Theorems. -/

section DictLemmas

variable {β : Type}

theorem dictGet_append_some (fs l : List (Str × β)) (k : Str) (v : β)
    (h : dictGet fs k = some v) : dictGet (fs ++ l) k = some v := by
  simp only [dictGet, List.find?_append] at *
  cases hf : fs.find? (fun p => p.1 == k) with
  | none => rw [hf] at h; simp at h
  | some p => rw [hf] at h; simp [Option.or, hf] at h ⊢; exact h

theorem dictGet_append_none (fs l : List (Str × β)) (k : Str)
    (h : dictGet fs k = none) : dictGet (fs ++ l) k = dictGet l k := by
  simp only [dictGet, List.find?_append] at *
  cases hf : fs.find? (fun p => p.1 == k) with
  | none => simp [Option.or]
  | some p => rw [hf] at h; simp at h

theorem dictGet_insert_self (fs : List (Str × β)) (k : Str) (v : β)
    (h : dictGet fs k = none) : dictGet (dictInsert fs k v) k = some v := by
  unfold dictInsert
  rw [h]
  simp only [Option.isSome_none, Bool.false_eq_true, if_false]
  rw [dictGet_append_none fs _ k h]
  simp [dictGet]

theorem dictGet_insert_other (fs : List (Str × β)) (k k' : Str) (v v' : β)
    (hk : dictGet fs k = none) (h : dictGet fs k' = some v') :
    dictGet (dictInsert fs k v) k' = some v' := by
  unfold dictInsert
  rw [hk]
  simp only [Option.isSome_none, Bool.false_eq_true, if_false]
  exact dictGet_append_some fs _ k' v' h

end DictLemmas

/-- C3: the first `fetchArticle(url)` call on a cache miss stores its
result (the value it returns) under `url` before returning; a call on
a cache hit returns exactly the cached result with the state — in
particular the network-request counter — unchanged; and a `fetchArticle`
call for any url never changes an existing cache entry
(write-at-most-once per key). -/
theorem fetchArticle_cache_once (net : Str → NetOutcome)
    (extract : Str → Except Unit (Str × Option Str)) (url k : Str)
    (v : FetchResult) (st : FetchSt) :
    (dictGet st.cache url = none →
      dictGet (fetchArticle net extract url st).2.cache url =
        some (fetchArticle net extract url st).1) ∧
    (∀ r, dictGet st.cache url = some r →
      fetchArticle net extract url st = (r, st)) ∧
    (dictGet st.cache k = some v →
      dictGet (fetchArticle net extract url st).2.cache k = some v) := by
  refine ⟨?_, ?_, ?_⟩
  · intro h
    simp only [fetchArticle, h]
    exact dictGet_insert_self _ _ _ h
  · intro r h
    simp only [fetchArticle, h]
  · intro h
    cases hu : dictGet st.cache url with
    | some r => simp only [fetchArticle, hu]; exact h
    | none =>
      simp only [fetchArticle, hu]
      exact dictGet_insert_other _ _ _ _ _ hu h

theorem fetchArticle_cache_once_witness :
    dictGet (FetchSt.mk [] 0).cache [] = none ∧
    dictGet (fetchArticle (fun _ => .exn) (fun _ => .error ()) []
        (FetchSt.mk [] 0)).2.cache [] =
      some (fetchArticle (fun _ => .exn) (fun _ => .error ()) []
        (FetchSt.mk [] 0)).1 :=
  ⟨rfl, (fetchArticle_cache_once (fun _ => .exn) (fun _ => .error ()) [] []
    ⟨[], none⟩ (FetchSt.mk [] 0)).1 rfl⟩

/-- C7: on a cache miss, a transport exception, a non-200 final
response, or an extraction exception each yield the empty fetch result
`{"text": "", "image": None}`; `fetchArticle` itself is a total
function of its oracles — no exception crosses its boundary. -/
theorem fetchArticle_degrades (net : Str → NetOutcome)
    (extract : Str → Except Unit (Str × Option Str)) (url : Str)
    (st : FetchSt) (hmiss : dictGet st.cache url = none)
    (hfail : net url = .exn ∨
      (∃ s p, net url = .resp s p ∧ s ≠ 200) ∨
      (∃ p, net url = .resp 200 p ∧ extract p = .error ())) :
    (fetchArticle net extract url st).1 = ⟨[], none⟩ := by
  simp only [fetchArticle, hmiss]
  rcases hfail with h | ⟨s, p, h, hs⟩ | ⟨p, h, he⟩
  · simp [fetchCompute, h]
  · simp [fetchCompute, h, hs]
  · simp [fetchCompute, h, he]

theorem fetchArticle_degrades_witness :
    (fetchArticle (fun _ => .resp 404 []) (fun _ => .ok ([], none))
      ("u".data) (FetchSt.mk [] 0)).1 = ⟨[], none⟩ :=
  fetchArticle_degrades (fun _ => .resp 404 []) (fun _ => .ok ([], none))
    ("u".data) (FetchSt.mk [] 0) rfl
    (Or.inr (Or.inl ⟨404, [], rfl, by decide⟩))

/-- C5: the sentiment label is `positive` exactly when the returned
compound score is at least 0.05, `negative` exactly when it is at most
-0.05, and `neutral` otherwise; absent or empty text, or an unavailable
lexicon, returns exactly `{compound: 0.0, label: neutral}`. -/
theorem sentClass_iff (comp : ℚ) :
    (((if (5 : ℚ) / 100 ≤ comp then SentLabel.positive
        else if comp ≤ -((5 : ℚ) / 100) then SentLabel.negative
        else SentLabel.neutral) = SentLabel.positive) ↔ (5 : ℚ) / 100 ≤ comp) ∧
    (((if (5 : ℚ) / 100 ≤ comp then SentLabel.positive
        else if comp ≤ -((5 : ℚ) / 100) then SentLabel.negative
        else SentLabel.neutral) = SentLabel.negative) ↔ comp ≤ -((5 : ℚ) / 100)) ∧
    (((if (5 : ℚ) / 100 ≤ comp then SentLabel.positive
        else if comp ≤ -((5 : ℚ) / 100) then SentLabel.negative
        else SentLabel.neutral) = SentLabel.neutral) ↔
      ¬ (5 : ℚ) / 100 ≤ comp ∧ ¬ comp ≤ -((5 : ℚ) / 100)) := by
  by_cases hp : (5 : ℚ) / 100 ≤ comp
  · have hq : ¬ comp ≤ -((5 : ℚ) / 100) := by linarith
    simp [hp, hq]
  · by_cases hq : comp ≤ -((5 : ℚ) / 100) <;> simp [hp, hq]

theorem analyze_sentiment_spec (vader : Option (Str → ℚ)) (text : Option Str) :
    ((analyze_sentiment vader text).label = .positive ↔
      (5 : ℚ) / 100 ≤ (analyze_sentiment vader text).compound) ∧
    ((analyze_sentiment vader text).label = .negative ↔
      (analyze_sentiment vader text).compound ≤ -((5 : ℚ) / 100)) ∧
    ((analyze_sentiment vader text).label = .neutral ↔
      ¬ (5 : ℚ) / 100 ≤ (analyze_sentiment vader text).compound ∧
      ¬ (analyze_sentiment vader text).compound ≤ -((5 : ℚ) / 100)) ∧
    ((text = none ∨ text = some [] ∨ vader = none) →
      analyze_sentiment vader text = ⟨0, .neutral⟩) := by
  have h1 : ¬ (5 : ℚ) / 100 ≤ (0 : ℚ) := by norm_num
  have h2 : ¬ (0 : ℚ) ≤ -((5 : ℚ) / 100) := by norm_num
  match vader, text with
  | vader, none =>
    have hred : analyze_sentiment vader none = ⟨0, .neutral⟩ := rfl
    rw [hred]
    exact ⟨by simp [h1], by simp [h2], by simp [h1, h2], fun _ => rfl⟩
  | vader, some [] =>
    have hred : analyze_sentiment vader (some []) = ⟨0, .neutral⟩ := rfl
    rw [hred]
    exact ⟨by simp [h1], by simp [h2], by simp [h1, h2], fun _ => rfl⟩
  | none, some (c :: cs) =>
    have hred : analyze_sentiment none (some (c :: cs)) = ⟨0, .neutral⟩ := rfl
    rw [hred]
    refine ⟨by simp [h1], by simp [h2], by simp [h1, h2], ?_⟩
    rintro (h | h | h) <;> first | exact rfl | exact absurd h (by simp)
  | some f, some (c :: cs) =>
    have hred : analyze_sentiment (some f) (some (c :: cs)) =
        ⟨f ((c :: cs).take 5000),
          if (5 : ℚ) / 100 ≤ f ((c :: cs).take 5000) then .positive
          else if f ((c :: cs).take 5000) ≤ -((5 : ℚ) / 100) then .negative
          else .neutral⟩ := rfl
    rw [hred]
    obtain ⟨hA, hB, hC⟩ := sentClass_iff (f ((c :: cs).take 5000))
    exact ⟨hA, hB, hC, by rintro (h | h | h) <;> exact absurd h (by simp)⟩

theorem analyze_sentiment_spec_witness :
    analyze_sentiment (some (fun _ => (1 : ℚ))) (some []) =
      Sentiment.mk 0 .neutral :=
  (analyze_sentiment_spec (some (fun _ => (1 : ℚ))) (some [])).2.2.2
    (Or.inr (Or.inl rfl))

/-- C9 (code divergence): with every required field present the handler
does not return the success response: the call
`fetch_and_email_news(email=..., name=..., preferences=..., api_key=...,
gmail_user=..., gmail_pass=...)` cannot be bound against the signature
`fetch_and_email_news(recipient, name, params, *, api_key, ...)` — the
`TypeError` is caught by the blanket `except` and answered with a 500
error; a request missing a required field gets the 400 error. -/
theorem send_news_divergence :
    send_news ["email", "name", "preferences", "api_key", "gmail_user",
      "gmail_pass"] = .serverError ∧
    send_news ["email", "name"] = .badRequest ∧
    bindsOk feenAccepted feenRequired sendCallKwargs = false := by
  refine ⟨by decide, by decide, by decide⟩

section HeadlineDedup

theorem addItems_eq (its : List GItem) :
    ∀ acc seen, addItems acc seen its =
      (acc ++ dedupByUrl seen its, seenAfter seen its) := by
  induction its with
  | nil => intro acc seen; simp [addItems, dedupByUrl, seenAfter]
  | cons it its ih =>
    intro acc seen
    simp only [addItems, dedupByUrl, seenAfter]
    by_cases h : (itemUrl it = [] || seen.contains (itemUrl it)) = true
    · rw [if_pos h, if_pos h, if_pos h, ih]
    · rw [if_neg h, if_neg h, if_neg h, ih]
      simp

theorem dedupByUrl_append (l₁ l₂ : List GItem) :
    ∀ seen, dedupByUrl seen (l₁ ++ l₂) =
      dedupByUrl seen l₁ ++ dedupByUrl (seenAfter seen l₁) l₂ := by
  induction l₁ with
  | nil => intro seen; simp [dedupByUrl, seenAfter]
  | cons it its ih =>
    intro seen
    simp only [List.cons_append, dedupByUrl, seenAfter, List.append_eq]
    by_cases h : (itemUrl it = [] || seen.contains (itemUrl it)) = true
    · rw [if_pos h, if_pos h, if_pos h, ih]
    · rw [if_neg h, if_neg h, if_neg h, ih]
      simp

theorem seenAfter_append (l₁ l₂ : List GItem) :
    ∀ seen, seenAfter seen (l₁ ++ l₂) =
      seenAfter (seenAfter seen l₁) l₂ := by
  induction l₁ with
  | nil => intro seen; simp [seenAfter]
  | cons it its ih =>
    intro seen
    simp only [List.cons_append, seenAfter, List.append_eq]
    by_cases h : (itemUrl it = [] || seen.contains (itemUrl it)) = true
    · rw [if_pos h, if_pos h, ih]
    · rw [if_neg h, if_neg h, ih]

theorem collectAux_eq (api : Nat → ApiResp) (cs : List Str) :
    ∀ i acc seen, collectAux api i acc seen cs =
      (acc ++ dedupByUrl seen (flatItems api i cs),
       seenAfter seen (flatItems api i cs)) := by
  induction cs with
  | nil => intro i acc seen; simp [collectAux, flatItems, dedupByUrl, seenAfter]
  | cons c cs ih =>
    intro i acc seen
    cases h : api i with
    | ok items =>
      simp only [collectAux, flatItems, h]
      rw [addItems_eq, ih, dedupByUrl_append, seenAfter_append]
      simp
    | exn =>
      simp only [collectAux, flatItems, h]
      rw [ih]
      simp
    | badStatus =>
      simp only [collectAux, flatItems, h]
      rw [ih]
      simp

theorem collectHeadlines_eq_dedup (api : Nat → ApiResp) (cats : List Str) :
    collectHeadlines api cats = dedupByUrl [] (flatItems api 0 cats) := by
  unfold collectHeadlines
  rw [collectAux_eq]
  simp

theorem dedupByUrl_sublist (l : List GItem) :
    ∀ seen, dedupByUrl seen l <+ l := by
  induction l with
  | nil => intro seen; simp [dedupByUrl]
  | cons it its ih =>
    intro seen
    simp only [dedupByUrl]
    by_cases h : (itemUrl it = [] || seen.contains (itemUrl it)) = true
    · rw [if_pos h]; exact (ih seen).cons it
    · rw [if_neg h]; exact (ih _).cons₂ it

theorem dedupByUrl_url_fresh (l : List GItem) :
    ∀ seen, ∀ it ∈ dedupByUrl seen l,
      itemUrl it ≠ [] ∧ seen.contains (itemUrl it) = false := by
  induction l with
  | nil => intro seen it h; simp [dedupByUrl] at h
  | cons x xs ih =>
    intro seen it h
    simp only [dedupByUrl] at h
    by_cases hc : (itemUrl x = [] || seen.contains (itemUrl x)) = true
    · rw [if_pos hc] at h; exact ih seen it h
    · rw [if_neg hc] at h
      simp only [Bool.or_eq_true, decide_eq_true_eq] at hc
      push_neg at hc
      rcases List.mem_cons.mp h with rfl | h
      · exact ⟨hc.1, by simpa using hc.2⟩
      · obtain ⟨h1, h2⟩ := ih _ it h
        simp only [List.contains_cons, Bool.or_eq_false_iff] at h2
        exact ⟨h1, h2.2⟩

theorem dedupByUrl_urls_nodup (l : List GItem) :
    ∀ seen, ((dedupByUrl seen l).map itemUrl).Nodup := by
  induction l with
  | nil => intro seen; simp [dedupByUrl]
  | cons x xs ih =>
    intro seen
    simp only [dedupByUrl]
    by_cases hc : (itemUrl x = [] || seen.contains (itemUrl x)) = true
    · rw [if_pos hc]; exact ih seen
    · rw [if_neg hc]
      simp only [List.map_cons, List.nodup_cons]
      refine ⟨?_, ih _⟩
      intro hmem
      obtain ⟨it, hit, heq⟩ := List.mem_map.mp hmem
      obtain ⟨_, hfresh⟩ := dedupByUrl_url_fresh xs _ it hit
      rw [heq] at hfresh
      simp [List.contains_cons] at hfresh

theorem dedupByUrl_first (l : List GItem) :
    ∀ seen, ∀ it ∈ dedupByUrl seen l,
      l.find? (fun x => itemUrl x == itemUrl it) = some it := by
  induction l with
  | nil => intro seen it h; simp [dedupByUrl] at h
  | cons x xs ih =>
    intro seen it h
    simp only [dedupByUrl] at h
    by_cases hc : (itemUrl x = [] || seen.contains (itemUrl x)) = true
    · rw [if_pos hc] at h
      obtain ⟨hne, hfresh⟩ := dedupByUrl_url_fresh xs seen it h
      have hx : ¬ (fun y => itemUrl y == itemUrl it) x = true := by
        simp only [Bool.or_eq_true, decide_eq_true_eq] at hc
        intro heq
        simp only [beq_iff_eq] at heq
        rcases hc with hc | hc
        · exact hne (heq ▸ hc)
        · rw [heq] at hc
          rw [hc] at hfresh
          cases hfresh
      rw [List.find?_cons_of_neg (p := fun y => itemUrl y == itemUrl it) _ hx]
      exact ih seen it h
    · rw [if_neg hc] at h
      rcases List.mem_cons.mp h with rfl | h
      · exact List.find?_cons_of_pos _ (by simp)
      · obtain ⟨hne, hfresh⟩ := dedupByUrl_url_fresh xs _ it h
        simp only [List.contains_cons, Bool.or_eq_false_iff] at hfresh
        have hx : ¬ (fun y => itemUrl y == itemUrl it) x = true := by
          intro heq
          simp only [beq_iff_eq] at heq
          have h1 := hfresh.1
          rw [← heq] at h1
          simp at h1
        rw [List.find?_cons_of_neg (p := fun y => itemUrl y == itemUrl it) _ hx]
        exact ih _ it h

theorem dedupByUrl_complete (l : List GItem) :
    ∀ seen u, u ≠ [] → u ∈ l.map itemUrl → seen.contains u = false →
      u ∈ (dedupByUrl seen l).map itemUrl := by
  induction l with
  | nil => intro seen u _ h; simp at h
  | cons x xs ih =>
    intro seen u hne hmem hfresh
    simp only [dedupByUrl]
    by_cases hc : (itemUrl x = [] || seen.contains (itemUrl x)) = true
    · rw [if_pos hc]
      rcases List.mem_map.mp hmem with ⟨it, hit, heq⟩
      rcases List.mem_cons.mp hit with rfl | hit
      · exfalso
        simp only [Bool.or_eq_true, decide_eq_true_eq] at hc
        rcases hc with hc | hc
        · exact hne (heq ▸ hc)
        · rw [heq] at hc; rw [hc] at hfresh; cases hfresh
      · exact ih seen u hne (List.mem_map.mpr ⟨it, hit, heq⟩) hfresh
    · rw [if_neg hc]
      rcases List.mem_map.mp hmem with ⟨it, hit, heq⟩
      rcases List.mem_cons.mp hit with rfl | hit
      · rw [← heq]; simp
      · by_cases hu : u = itemUrl x
        · rw [hu]; simp
        · simp only [List.map_cons, List.mem_cons]
          right
          refine ih _ u hne (List.mem_map.mpr ⟨it, hit, heq⟩) ?_
          simp only [List.contains_cons, Bool.or_eq_false_iff]
          refine ⟨?_, hfresh⟩
          simp only [beq_eq_false_iff_ne, ne_eq]
          exact hu

end HeadlineDedup

/-- C4: the headline list `getNews` accumulates is, relative to the
concatenation of all successful API responses in request order: a
sub-sequence of it (order preserved), with pairwise distinct urls, no
empty urls, each output item being the first input item bearing its
url (first occurrence wins), and containing every nonempty url that
occurs at all. -/
theorem collectHeadlines_spec (api : Nat → ApiResp) (cats : List Str) :
    collectHeadlines api cats <+ flatItems api 0 cats ∧
    ((collectHeadlines api cats).map itemUrl).Nodup ∧
    (∀ it ∈ collectHeadlines api cats, itemUrl it ≠ []) ∧
    (∀ it ∈ collectHeadlines api cats,
      (flatItems api 0 cats).find? (fun x => itemUrl x == itemUrl it) = some it) ∧
    (∀ u, u ≠ [] → u ∈ (flatItems api 0 cats).map itemUrl →
      u ∈ (collectHeadlines api cats).map itemUrl) := by
  rw [collectHeadlines_eq_dedup]
  refine ⟨dedupByUrl_sublist _ _, dedupByUrl_urls_nodup _ _, ?_, ?_, ?_⟩
  · intro it hit
    exact (dedupByUrl_url_fresh _ _ it hit).1
  · intro it hit
    exact dedupByUrl_first _ _ it hit
  · intro u hne hmem
    exact dedupByUrl_complete _ _ u hne hmem rfl

theorem collectHeadlines_spec_witness :
    (flatItems
        (fun i => if i = 0
          then ApiResp.ok [GItem.mk (some ("u1".data)) (some ("t1".data)) none .null,
                           GItem.mk none (some ("t3".data)) none .null]
          else if i = 1
          then ApiResp.ok [GItem.mk (some ("u1".data)) (some ("t2".data)) none .null]
          else ApiResp.badStatus)
        0 ["a".data, "b".data]).find?
      (fun x => itemUrl x ==
        itemUrl (GItem.mk (some ("u1".data)) (some ("t1".data)) none .null)) =
    some (GItem.mk (some ("u1".data)) (some ("t1".data)) none .null) :=
  (collectHeadlines_spec
    (fun i => if i = 0
      then ApiResp.ok [GItem.mk (some ("u1".data)) (some ("t1".data)) none .null,
                       GItem.mk none (some ("t3".data)) none .null]
      else if i = 1
      then ApiResp.ok [GItem.mk (some ("u1".data)) (some ("t2".data)) none .null]
      else ApiResp.badStatus)
    ["a".data, "b".data]).2.2.2.1
    (GItem.mk (some ("u1".data)) (some ("t1".data)) none .null) (by decide)

section Workers

variable (net : Str → NetOutcome)
variable (extract : Str → Except Unit (Str × Option Str))
variable (vader : Option (Str → ℚ))

/-- A cache state is consistent with the network oracles when every
entry holds exactly what a fresh fetch of its url would produce: the
invariant `fetchArticle` maintains, since it only ever stores
`fetchCompute` results. -/
def cacheValid (st : FetchSt) : Prop :=
  ∀ p ∈ st.cache, p.2 = fetchCompute net extract p.1

theorem cacheValid_get {st : FetchSt} (h : cacheValid net extract st)
    (url : Str) (r : FetchResult) (hget : dictGet st.cache url = some r) :
    r = fetchCompute net extract url := by
  unfold dictGet at hget
  cases hf : st.cache.find? (fun p => p.1 == url) with
  | none => rw [hf] at hget; simp at hget
  | some p =>
    rw [hf] at hget
    simp at hget
    have hmem := List.mem_of_find?_eq_some hf
    have hkey := List.find?_some hf
    simp only [beq_iff_eq] at hkey
    rw [← hget, h p hmem, hkey]

theorem fetchArticle_valid (url : Str) {st : FetchSt}
    (h : cacheValid net extract st) :
    (fetchArticle net extract url st).1 = fetchCompute net extract url ∧
    cacheValid net extract (fetchArticle net extract url st).2 := by
  unfold fetchArticle
  cases hget : dictGet st.cache url with
  | some r =>
    exact ⟨cacheValid_get net extract h url r hget, h⟩
  | none =>
    refine ⟨rfl, ?_⟩
    intro p hp
    unfold dictInsert at hp
    rw [hget] at hp
    simp only [Option.isSome_none, Bool.false_eq_true, if_false,
      List.mem_append] at hp
    rcases hp with hp | hp
    · exact h p hp
    · simp only [List.mem_singleton] at hp
      rw [hp]

theorem workOne_valid (it : GItem) {st : FetchSt}
    (h : cacheValid net extract st) :
    (workOne net extract vader it st).1 = pureWork net extract vader it ∧
    cacheValid net extract (workOne net extract vader it st).2 := by
  cases hs : sourceName it.source with
  | error e =>
    constructor
    · simp [workOne, pureWork, hs]
    · simp only [workOne, hs]
      exact h
  | ok src =>
    obtain ⟨h1, h2⟩ := fetchArticle_valid net extract (itemUrl it) h
    constructor
    · simp only [workOne, pureWork, hs]
      rw [h1]
    · simp only [workOne, hs]
      exact h2

/-- Worker completions under any schedule record, at each index of the
schedule, the schedule-independent result of that item's worker. -/
theorem runWorkers_eq (items : List GItem) :
    ∀ (sched : List Nat) (st : FetchSt), cacheValid net extract st →
      runWorkers net extract vader items st sched =
        sched.filterMap (fun i =>
          (items.get? i).map (fun it => (i, pureWork net extract vader it))) := by
  intro sched
  induction sched with
  | nil => intro st h; rfl
  | cons i rest ih =>
    intro st h
    cases hg : items.get? i with
    | none =>
      simp only [List.filterMap_cons, hg, Option.map_none', runWorkers]
      exact ih st h
    | some it =>
      simp only [List.filterMap_cons, hg, Option.map_some', runWorkers]
      obtain ⟨h1, h2⟩ := workOne_valid net extract vader it h
      rw [h1, ih _ h2]

theorem lookupRes_filterMap (items : List GItem) (sched : List Nat)
    (hnd : sched.Nodup) (i : Nat) (hi : i ∈ sched) (it : GItem)
    (hg : items.get? i = some it) :
    lookupRes (sched.filterMap (fun j =>
        (items.get? j).map (fun x => (j, pureWork net extract vader x)))) i =
      some (pureWork net extract vader it) := by
  induction sched with
  | nil => cases hi
  | cons j rest ih =>
    rcases List.mem_cons.mp hi with rfl | hi
    · simp only [List.filterMap_cons, hg, Option.map_some']
      simp [lookupRes]
    · have hj : j ≠ i := by
        intro hji
        rw [hji] at hnd
        exact (List.nodup_cons.mp hnd).1 hi
      cases hgj : items.get? j with
      | none =>
        simp only [List.filterMap_cons, hgj, Option.map_none']
        exact ih (List.nodup_cons.mp hnd).2 hi
      | some x =>
        simp only [List.filterMap_cons, hgj, Option.map_some']
        simp only [lookupRes]
        rw [List.find?_cons_of_neg (p := fun q : Nat × Except Unit Enriched => q.1 == i) _ (by simpa using hj)]
        exact ih (List.nodup_cons.mp hnd).2 hi

theorem collectRes_eq (done : List (Nat × Except Unit Enriched))
    (its : List GItem) :
    ∀ (k : Nat),
      (∀ j it, its.get? j = some it →
        lookupRes done (k + j) = some (pureWork net extract vader it)) →
      collectRes done k its = its.mapM (pureWork net extract vader) := by
  induction its with
  | nil => intro k _; rfl
  | cons it its ih =>
    intro k hk
    have h0 : lookupRes done k = some (pureWork net extract vader it) := by
      simpa using hk 0 it rfl
    simp only [collectRes, h0, List.mapM_cons]
    have hrest : collectRes done (k + 1) its =
        its.mapM (pureWork net extract vader) := by
      refine ih (k + 1) ?_
      intro j x hx
      have := hk (j + 1) x (by simpa using hx)
      simpa [Nat.add_assoc, Nat.add_comm 1 j] using this
    cases hp : pureWork net extract vader it with
    | error e => rfl
    | ok r =>
      rw [hrest]
      cases hm : its.mapM (pureWork net extract vader) with
      | error e => rfl
      | ok l => rfl

/-- Iterating `ex.map` yields, for every schedule that completes all
workers, exactly the submission-order sequence of worker results: the
completion order never leaks. -/
theorem enrichCollect_eq (items : List GItem) (sched : List Nat)
    (hperm : sched.Perm (List.range items.length)) (st : FetchSt)
    (hst : cacheValid net extract st) :
    enrichCollect net extract vader items st sched =
      items.mapM (pureWork net extract vader) := by
  unfold enrichCollect
  rw [runWorkers_eq net extract vader items sched st hst]
  refine collectRes_eq net extract vader _ items 0 ?_
  intro j it hj
  have hnd : sched.Nodup := hperm.nodup_iff.mpr (List.nodup_range _)
  have hmem : j ∈ sched := by
    rw [hperm.mem_iff, List.mem_range]
    exact (List.get?_eq_some.mp hj).1
  simpa using lookupRes_filterMap net extract vader items sched hnd j hmem it hj

end Workers

section SortOrder

theorem strLtB_irrefl (a : Str) : strLtB a a = false := by
  induction a with
  | nil => rfl
  | cons c cs ih => simp [strLtB, ih]

theorem strLtB_asymm (a : Str) :
    ∀ b, strLtB a b = true → strLtB b a = false := by
  induction a with
  | nil =>
    intro b h
    cases b with
    | nil => simp [strLtB] at h
    | cons d ds => rfl
  | cons c cs ih =>
    intro b h
    cases b with
    | nil => simp [strLtB] at h
    | cons d ds =>
      simp only [strLtB] at h ⊢
      by_cases h1 : c.toNat < d.toNat
      · have h2 : ¬ d.toNat < c.toNat := by omega
        simp [h1, h2]
      · by_cases h2 : d.toNat < c.toNat
        · simp [h1, h2] at h
        · simp only [h1, h2, if_false] at h ⊢
          exact ih ds h

theorem strLtB_trichot (a : Str) :
    ∀ b, strLtB a b = true ∨ a = b ∨ strLtB b a = true := by
  induction a with
  | nil =>
    intro b
    cases b with
    | nil => right; left; rfl
    | cons d ds => left; rfl
  | cons c cs ih =>
    intro b
    cases b with
    | nil => right; right; rfl
    | cons d ds =>
      simp only [strLtB]
      by_cases h1 : c.toNat < d.toNat
      · left; simp [h1]
      · by_cases h2 : d.toNat < c.toNat
        · right; right; simp [h1, h2]
        · have hcd : c = d := by
            have hn : c.toNat = d.toNat := by omega
            rw [← Char.ofNat_toNat c, hn, Char.ofNat_toNat]
          rcases ih ds with h | h | h
          · left; simp [h1, h2, h]
          · right; left; rw [hcd, h]
          · right; right; simp [h1, h2, h]

theorem strLtB_trans (a : Str) :
    ∀ b c, strLtB a b = true → strLtB b c = true → strLtB a c = true := by
  induction a with
  | nil =>
    intro b c hab hbc
    cases b with
    | nil => simp [strLtB] at hab
    | cons e es =>
      cases c with
      | nil => simp [strLtB] at hbc
      | cons f fs => rfl
  | cons d ds ih =>
    intro b c hab hbc
    cases b with
    | nil => simp [strLtB] at hab
    | cons e es =>
      cases c with
      | nil => simp [strLtB] at hbc
      | cons f fs =>
        simp only [strLtB] at hab hbc ⊢
        by_cases h4 : e.toNat < d.toNat
        · simp only [if_neg (by omega : ¬ d.toNat < e.toNat), if_pos h4] at hab
          cases hab
        · by_cases h5 : f.toNat < e.toNat
          · simp only [if_neg (by omega : ¬ e.toNat < f.toNat), if_pos h5] at hbc
            cases hbc
          · by_cases h1 : d.toNat < e.toNat
            · have h3 : d.toNat < f.toNat := by omega
              simp [h3]
            · by_cases h2 : e.toNat < f.toNat
              · have h3 : d.toNat < f.toNat := by omega
                simp [h3]
              · have h3 : ¬ d.toNat < f.toNat := by omega
                have h6 : ¬ f.toNat < d.toNat := by omega
                simp only [h1, h4, if_false] at hab
                simp only [h2, h5, if_false] at hbc
                simp only [h3, h6, if_false]
                exact ih es fs hab hbc

theorem pairLtB_asymm (p q : Str × Str) (h : pairLtB p q = true) :
    pairLtB q p = false := by
  unfold pairLtB at h ⊢
  rcases Bool.or_eq_true_iff.mp h with h1 | h1
  · have h2 : strLtB q.1 p.1 = false := strLtB_asymm _ _ h1
    have h3 : (q.1 == p.1) = false := by
      apply beq_eq_false_iff_ne.mpr
      intro he
      rw [he] at h1
      rw [strLtB_irrefl] at h1
      cases h1
    simp [h2, h3]
  · obtain ⟨h1, h2⟩ := Bool.and_eq_true_iff.mp h1
    have he : p.1 = q.1 := beq_iff_eq.mp h1
    have h3 : strLtB q.1 p.1 = false := by rw [he, strLtB_irrefl]
    have h4 : strLtB q.2 p.2 = false := strLtB_asymm _ _ h2
    simp [h3, h4]

theorem pairLtB_trichot (p q : Str × Str) :
    pairLtB p q = true ∨ p = q ∨ pairLtB q p = true := by
  unfold pairLtB
  rcases strLtB_trichot p.1 q.1 with h | h | h
  · left; simp [h]
  · rcases strLtB_trichot p.2 q.2 with h2 | h2 | h2
    · left; simp [h, h2]
    · right; left
      exact Prod.ext h h2
    · right; right; simp [h, h2]
  · right; right; simp [h]

theorem pairLtB_trans (p q r : Str × Str) (h1 : pairLtB p q = true)
    (h2 : pairLtB q r = true) : pairLtB p r = true := by
  unfold pairLtB at h1 h2 ⊢
  rcases Bool.or_eq_true_iff.mp h1 with ha | ha <;>
    rcases Bool.or_eq_true_iff.mp h2 with hb | hb
  · simp [strLtB_trans _ _ _ ha hb]
  · obtain ⟨hb1, _⟩ := Bool.and_eq_true_iff.mp hb
    have he : q.1 = r.1 := beq_iff_eq.mp hb1
    rw [← he]
    simp [ha]
  · obtain ⟨ha1, _⟩ := Bool.and_eq_true_iff.mp ha
    have he : p.1 = q.1 := beq_iff_eq.mp ha1
    rw [he]
    simp [hb]
  · obtain ⟨ha1, ha2⟩ := Bool.and_eq_true_iff.mp ha
    obtain ⟨hb1, hb2⟩ := Bool.and_eq_true_iff.mp hb
    have he1 : p.1 = q.1 := beq_iff_eq.mp ha1
    have he2 : q.1 = r.1 := beq_iff_eq.mp hb1
    have he : p.1 = r.1 := he1.trans he2
    simp [he, strLtB_trans _ _ _ ha2 hb2]

instance : IsTotal Enriched rKey :=
  ⟨fun a b => by
    unfold rKey
    by_cases h : pairLtB (keyOf b) (keyOf a) = true
    · right
      exact pairLtB_asymm _ _ h
    · left
      exact Bool.eq_false_iff.mpr h⟩

instance : IsTrans Enriched rKey :=
  ⟨fun a b c hab hbc => by
    unfold rKey at hab hbc ⊢
    by_cases h : pairLtB (keyOf c) (keyOf a) = true
    · exfalso
      rcases pairLtB_trichot (keyOf c) (keyOf b) with h1 | h1 | h1
      · rw [hbc] at h1; cases h1
      · rw [h1] at h
        rw [hab] at h
        cases h
      · have h2 := pairLtB_trans _ _ _ h1 h
        rw [hab] at h2
        cases h2
    · exact Bool.eq_false_iff.mpr h⟩

end SortOrder

section ExceptMapM

theorem mapM_ok_length {α β : Type} (f : α → Except Unit β) :
    ∀ (l : List α) (r : List β), l.mapM f = .ok r → r.length = l.length := by
  intro l
  induction l with
  | nil =>
    intro r h
    simp only [List.mapM_nil] at h
    cases h
    rfl
  | cons a l ih =>
    intro r h
    simp only [List.mapM_cons] at h
    cases hf : f a with
    | error e => rw [hf] at h; cases h
    | ok b =>
      rw [hf] at h
      cases hm : l.mapM f with
      | error e => rw [hm] at h; cases h
      | ok bs =>
        rw [hm] at h
        cases h
        simpa using ih bs hm

theorem mapM_ok_mem {α β : Type} (f : α → Except Unit β) :
    ∀ (l : List α) (r : List β), l.mapM f = .ok r →
      ∀ b ∈ r, ∃ a ∈ l, f a = .ok b := by
  intro l
  induction l with
  | nil =>
    intro r h b hb
    simp only [List.mapM_nil] at h
    cases h
    cases hb
  | cons a l ih =>
    intro r h b hb
    simp only [List.mapM_cons] at h
    cases hf : f a with
    | error e => rw [hf] at h; cases h
    | ok c =>
      rw [hf] at h
      cases hm : l.mapM f with
      | error e => rw [hm] at h; cases h
      | ok bs =>
        rw [hm] at h
        cases h
        rcases List.mem_cons.mp hb with rfl | hb
        · exact ⟨a, List.mem_cons_self a l, hf⟩
        · obtain ⟨x, hx, hfx⟩ := ih bs hm b hb
          exact ⟨x, List.mem_cons_of_mem a hx, hfx⟩

end ExceptMapM

/-- C2: the result of `getNews` is invariant under the worker completion
schedule and the (network-consistent) state of the process-wide article
cache — two runs over identical input data return identical lists —
and every returned list is sorted ascending by the key
`(sourceName, sha1-hex of title)`. -/
theorem getNews_deterministic_sorted (api : Nat → ApiResp)
    (net : Str → NetOutcome) (extract : Str → Except Unit (Str × Option Str))
    (vader : Option (Str → ℚ)) (cats : List Str) (ff : Nat)
    (st st' : FetchSt) (sched sched' : List Nat)
    (hp : sched.Perm (List.range (collectHeadlines api cats).length))
    (hp' : sched'.Perm (List.range (collectHeadlines api cats).length))
    (hv : cacheValid net extract st) (hv' : cacheValid net extract st') :
    getNews api net extract vader cats ff st sched =
      getNews api net extract vader cats ff st' sched' ∧
    (∀ out, getNews api net extract vader cats ff st sched = .ok out →
      out.Sorted rKey) := by
  constructor
  · simp only [getNews]
    rw [enrichCollect_eq net extract vader _ sched hp st hv,
      enrichCollect_eq net extract vader _ sched' hp' st' hv']
  · intro out hout
    simp only [getNews] at hout
    cases he : enrichCollect net extract vader (collectHeadlines api cats) st
        sched with
    | error e => simp only [he] at hout; cases hout
    | ok out₀ =>
      simp only [he] at hout
      by_cases hc : out₀ = [] ∧ collectHeadlines api cats ≠ []
      · rw [if_pos hc] at hout
        cases hf : fallbackRecords (collectHeadlines api cats) ff with
        | error e => simp only [hf] at hout; cases hout
        | ok fb =>
          simp only [hf] at hout
          cases hout
          exact List.sorted_insertionSort rKey fb
      · rw [if_neg hc] at hout
        cases hout
        exact List.sorted_insertionSort rKey out₀

theorem getNews_deterministic_sorted_witness :
    getNews
        (fun i => if i = 0 then ApiResp.ok
          [GItem.mk (some ("u1".data)) (some ("t1".data))
            (some ("alpha beta gamma delta.".data)) .null,
           GItem.mk (some ("u2".data)) (some ("t2".data))
            (some ("epsilon zeta eta theta.".data)) .null]
          else ApiResp.badStatus)
        (fun _ => .exn) (fun _ => .error ()) none ["g".data] 12
        (FetchSt.mk [] 0) [1, 0] =
      getNews
        (fun i => if i = 0 then ApiResp.ok
          [GItem.mk (some ("u1".data)) (some ("t1".data))
            (some ("alpha beta gamma delta.".data)) .null,
           GItem.mk (some ("u2".data)) (some ("t2".data))
            (some ("epsilon zeta eta theta.".data)) .null]
          else ApiResp.badStatus)
        (fun _ => .exn) (fun _ => .error ()) none ["g".data] 12
        (FetchSt.mk [("u9".data, FetchResult.mk [] none)] 1) [0, 1] ∧
    (getNews (fun _ => ApiResp.badStatus) (fun _ => .exn) (fun _ => .error ())
        none [] 12 (FetchSt.mk [] 0) []).toOption.getD [] = [] := by
  constructor
  · refine (getNews_deterministic_sorted _ _ _ _ _ _ _ _ _ _
      (by decide) (by decide) ?_ ?_).1
    · intro p hp
      cases hp
    · intro p hp
      simp only [List.mem_singleton] at hp
      rw [hp]
      rfl
  · rfl

/-- C6: when the enrichment aggregate is empty while the headline list
is not, the fallback produces between 1 and `max(5, fetch_full)`
headline-only records whose summary is the description (or empty),
whose sentiment is exactly neutral and which carry no body text; and
`getNews` never returns an empty list when headlines existed. -/
theorem getNews_fallback_spec :
    (∀ (hs : List GItem) (ff : Nat) (l : List Enriched), hs ≠ [] →
      fallbackRecords hs ff = .ok l →
      l ≠ [] ∧ l.length ≤ max 5 ff ∧
      ∀ e ∈ l, ∃ it ∈ hs.take (max 5 ff), ∃ src,
        sourceName it.source = .ok src ∧
        e = ⟨pyOrOpt it.title noTitle, src, pyOrOpt it.description [], none,
          itemUrl it, ⟨0, .neutral⟩⟩) ∧
    (∀ (api : Nat → ApiResp) (net : Str → NetOutcome)
      (extract : Str → Except Unit (Str × Option Str))
      (vader : Option (Str → ℚ)) (cats : List Str) (ff : Nat) (st : FetchSt)
      (sched : List Nat) (out : List Enriched),
      collectHeadlines api cats ≠ [] →
      getNews api net extract vader cats ff st sched = .ok out →
      out ≠ []) := by
  constructor
  · intro hs ff l hne hok
    refine ⟨?_, ?_, ?_⟩
    · have hlen := mapM_ok_length _ _ _ hok
      intro hl
      rw [hl] at hlen
      simp only [List.length_nil] at hlen
      have : (hs.take (max 5 ff)).length = min (max 5 ff) hs.length := by
        simp [List.length_take]
      rw [← hlen] at this
      rcases hs with _ | ⟨h, t⟩
      · exact hne rfl
      · simp only [List.length_cons] at this
        omega
    · have hlen := mapM_ok_length _ _ _ hok
      rw [hlen]
      exact List.length_take_le _ _
    · intro e he
      obtain ⟨it, hit, hfe⟩ := mapM_ok_mem _ _ _ hok e he
      refine ⟨it, hit, ?_⟩
      cases hsn : sourceName it.source with
      | error er => rw [hsn] at hfe; cases hfe
      | ok src =>
        rw [hsn] at hfe
        simp only [Except.map] at hfe
        cases hfe
        exact ⟨src, rfl, rfl⟩
  · intro api net extract vader cats ff st sched out hH hout
    simp only [getNews] at hout
    cases he : enrichCollect net extract vader (collectHeadlines api cats) st
        sched with
    | error e => simp only [he] at hout; cases hout
    | ok out₀ =>
      simp only [he] at hout
      by_cases hc : out₀ = [] ∧ collectHeadlines api cats ≠ []
      · rw [if_pos hc] at hout
        cases hf : fallbackRecords (collectHeadlines api cats) ff with
        | error e => simp only [hf] at hout; cases hout
        | ok fb =>
          simp only [hf] at hout
          cases hout
          have hfb : fb ≠ [] := by
            have hlen := mapM_ok_length _ _ _ hf
            intro hl
            rw [hl] at hlen
            simp only [List.length_nil] at hlen
            have hlt : ((collectHeadlines api cats).take (max 5 ff)).length =
                min (max 5 ff) (collectHeadlines api cats).length := by
              simp [List.length_take]
            rw [← hlen] at hlt
            rcases hhs : collectHeadlines api cats with _ | ⟨h, t⟩
            · exact hH hhs
            · rw [hhs] at hlt
              simp only [List.length_cons] at hlt
              omega
          intro hempty
          apply hfb
          have hperm := List.perm_insertionSort rKey fb
          rw [hempty] at hperm
          exact hperm.symm.eq_nil
      · rw [if_neg hc] at hout
        cases hout
        have hout₀ : out₀ ≠ [] := by
          intro h0
          exact hc ⟨h0, hH⟩
        intro hempty
        apply hout₀
        have hperm := List.perm_insertionSort rKey out₀
        rw [hempty] at hperm
        exact hperm.symm.eq_nil

theorem getNews_fallback_spec_witness :
    (fallbackRecords [GItem.mk (some ("u1".data)) (some ("t1".data))
        (some ("d1".data)) .null] 12).toOption.getD [] ≠ [] := by
  have h := getNews_fallback_spec.1
    [GItem.mk (some ("u1".data)) (some ("t1".data)) (some ("d1".data)) .null]
    12
    ((fallbackRecords [GItem.mk (some ("u1".data)) (some ("t1".data))
      (some ("d1".data)) .null] 12).toOption.getD [])
    (by decide) (by rfl)
  exact h.1

/-- C8 (code divergence): a headline whose `source` field is a truthy
non-dict JSON value (here the string `"CNN"`) makes `_work` raise
`AttributeError`; iterating `ex.map` re-raises it, so the whole
`getNews` run aborts with the exception — the sibling headline's
result is discarded rather than collected. -/
theorem worker_exception_aborts :
    pureWork (fun _ => .exn) (fun _ => .error ()) none
      (GItem.mk (some ("u2".data)) (some ("t2".data)) none
        (.str ("CNN".data))) = .error () ∧
    getNews
      (fun i => if i = 0 then ApiResp.ok
        [GItem.mk (some ("u1".data)) (some ("t1".data))
          (some ("alpha beta gamma delta.".data)) .null,
         GItem.mk (some ("u2".data)) (some ("t2".data)) none
          (.str ("CNN".data))]
        else ApiResp.badStatus)
      (fun _ => .exn) (fun _ => .error ()) none ["g".data] 12
      (FetchSt.mk [] 0) [0, 1] = .error () :=
  ⟨rfl, rfl⟩

section SummarizeInfra

/-- Every fragment the sentence splitter emits is a contiguous segment
of the accumulated prefix followed by the remaining input. -/
theorem sentSplitAuxF_segment (fuel : Nat) :
    ∀ (l acc : Str), ∀ s ∈ sentSplitAuxF fuel acc l,
      s <:+: (acc.reverse ++ l) := by
  induction fuel with
  | zero =>
    intro l acc s hs
    simp only [sentSplitAuxF, List.mem_singleton] at hs
    subst hs
    exact (List.prefix_append _ _).isInfix
  | succ fuel ih =>
    intro l acc s hs
    match l with
    | [] =>
      simp only [sentSplitAuxF, List.mem_singleton] at hs
      subst hs
      simp
    | [c] =>
      simp only [sentSplitAuxF] at hs
      have hrec := ih [] (c :: acc) s hs
      simpa [List.append_assoc] using hrec
    | c :: c' :: cs =>
      simp only [sentSplitAuxF] at hs
      by_cases hcond : (isSentPunct c && isPySpace c') = true
      · rw [if_pos hcond] at hs
        rcases List.mem_cons.mp hs with rfl | hs
        · refine List.IsPrefix.isInfix ?_
          refine ⟨c' :: cs, ?_⟩
          simp
        · have hrec := ih ((c' :: cs).dropWhile isPySpace) [] s hs
          simp only [List.reverse_nil, List.nil_append] at hrec
          refine hrec.trans ?_
          refine List.IsSuffix.isInfix ?_
          refine (List.dropWhile_suffix isPySpace).trans ?_
          refine ⟨acc.reverse ++ [c], ?_⟩
          simp
      · rw [if_neg hcond] at hs
        have hrec := ih (c' :: cs) (c :: acc) s hs
        simpa [List.append_assoc] using hrec

theorem sentSplit_segment (l : Str) : ∀ s ∈ sentSplit l, s <:+: l := by
  intro s hs
  have h := sentSplitAuxF_segment l.length l [] s hs
  simpa using h

/-- Stripping whitespace yields a contiguous segment. -/
theorem pyStrip_segment (l : Str) : pyStrip l <:+: l := by
  unfold pyStrip
  have h1 : l.dropWhile isPySpace <:+ l := List.dropWhile_suffix _
  have h2 : (l.dropWhile isPySpace).reverse.dropWhile isPySpace <:+
      (l.dropWhile isPySpace).reverse := List.dropWhile_suffix _
  have h3 : ((l.dropWhile isPySpace).reverse.dropWhile isPySpace).reverse <+:
      l.dropWhile isPySpace := by
    rw [← List.reverse_reverse (l.dropWhile isPySpace)]
    exact List.reverse_prefix.mpr (by simpa using h2)
  exact h3.isInfix.trans h1.isInfix

/-- Every sentence `_fast_sentences` returns appears verbatim in the
tag-stripped, entity-unescaped text. -/
theorem fastSentences_segment (t : Str) :
    ∀ s ∈ fastSentences t, s <:+: normalizeHtml t := by
  intro s hs
  unfold fastSentences at hs
  have hs' := List.mem_of_mem_filter hs
  obtain ⟨frag, hfrag, rfl⟩ := List.mem_map.mp hs'
  refine (pyStrip_segment frag).trans ?_
  refine (sentSplit_segment _ frag hfrag).trans ?_
  exact pyStrip_segment _

theorem dedupF_nodup {α : Type} [DecidableEq α] :
    ∀ l : List α, (dedupF l).Nodup := by
  intro l
  induction l with
  | nil => simp [dedupF]
  | cons x xs ih =>
    simp only [dedupF, List.nodup_cons]
    constructor
    · intro hmem
      have hp := List.of_mem_filter hmem
      simp at hp
    · exact ih.filter _

theorem dedupF_sublist {α : Type} [DecidableEq α] :
    ∀ l : List α, dedupF l <+ l := by
  intro l
  induction l with
  | nil => simp [dedupF]
  | cons x xs ih =>
    simp only [dedupF]
    exact ((List.filter_sublist _).trans ih).cons₂ x

theorem mem_dedupF {α : Type} [DecidableEq α] {l : List α} {x : α} :
    x ∈ dedupF l ↔ x ∈ l := by
  induction l with
  | nil => simp [dedupF]
  | cons y ys ih =>
    simp only [dedupF, List.mem_cons]
    constructor
    · rintro (rfl | h)
      · exact Or.inl rfl
      · exact Or.inr (ih.mp (List.mem_of_mem_filter h))
    · rintro (rfl | h)
      · exact Or.inl rfl
      · by_cases hx : x = y
        · exact Or.inl hx
        · refine Or.inr (List.mem_filter.mpr ⟨ih.mpr h, ?_⟩)
          simpa using hx

theorem sKeys_sublist (t : Str) : sKeys t <+ fastSentences t :=
  (dedupF_sublist _).trans (List.filter_sublist _)

theorem pair_sublist_of_indexOf_lt {α : Type} [DecidableEq α] :
    ∀ (l : List α) (s s' : α), s ∈ l → s' ∈ l →
      idxOf l s < idxOf l s' → [s, s'] <+ l := by
  intro l
  induction l with
  | nil => intro s s' h; cases h
  | cons a l ih =>
    intro s s' hs hs' hidx
    by_cases hsa : s = a
    · subst hsa
      have hne : s' ≠ s := by
        intro h
        subst h
        exact lt_irrefl _ hidx
      have hs'mem : s' ∈ l := by
        rcases List.mem_cons.mp hs' with h | h
        · exact absurd h hne
        · exact h
      exact (List.singleton_sublist.mpr hs'mem).cons₂ s
    · have hsmem : s ∈ l := (List.mem_cons.mp hs).resolve_left hsa
      have hs'a : s' ≠ a := by
        intro h
        subst h
        rw [idxOf_cons_self] at hidx
        omega
      have hs'mem : s' ∈ l := (List.mem_cons.mp hs').resolve_left hs'a
      have hlt : idxOf l s < idxOf l s' := by
        rw [idxOf_cons_ne _ _ hsa,
          idxOf_cons_ne _ _ hs'a] at hidx
        omega
      exact (ih s s' hsmem hs'mem hlt).cons a

theorem indexOf_filter_lt {α : Type} [DecidableEq α] (p : α → Bool) :
    ∀ (l : List α) (s s' : α), s ∈ l.filter p → s' ∈ l.filter p →
      idxOf l s < idxOf l s' →
      idxOf (l.filter p) s < idxOf (l.filter p) s' := by
  intro l
  induction l with
  | nil => intro s s' h; simp at h
  | cons a l ih =>
    intro s s' hs hs' hidx
    cases hp : p a with
    | true =>
      rw [List.filter_cons_of_pos hp] at hs hs' ⊢
      by_cases hsa : s = a
      · subst hsa
        have hne : s' ≠ s := by
          intro h
          subst h
          exact lt_irrefl _ hidx
        rw [idxOf_cons_self, idxOf_cons_ne _ _ hne]
        omega
      · by_cases hs'a : s' = a
        · subst hs'a
          rw [idxOf_cons_self] at hidx
          omega
        · have hsm : s ∈ l.filter p := by
            rcases List.mem_cons.mp hs with h | h
            · exact absurd h hsa
            · exact h
          have hs'm : s' ∈ l.filter p := by
            rcases List.mem_cons.mp hs' with h | h
            · exact absurd h hs'a
            · exact h
          have hlt : idxOf l s < idxOf l s' := by
            rw [idxOf_cons_ne _ _ hsa,
              idxOf_cons_ne _ _ hs'a] at hidx
            omega
          have := ih s s' hsm hs'm hlt
          rw [idxOf_cons_ne _ _ hsa,
            idxOf_cons_ne _ _ hs'a]
          omega
    | false =>
      rw [List.filter_cons_of_neg (by simp [hp])] at hs hs' ⊢
      have hsa : s ≠ a := by
        intro h
        subst h
        have := List.of_mem_filter hs
        rw [hp] at this
        cases this
      have hs'a : s' ≠ a := by
        intro h
        subst h
        have := List.of_mem_filter hs'
        rw [hp] at this
        cases this
      have hlt : idxOf l s < idxOf l s' := by
        rw [idxOf_cons_ne _ _ hsa,
          idxOf_cons_ne _ _ hs'a] at hidx
        omega
      exact ih s s' hs hs' hlt

theorem indexOf_dedupF_lt {α : Type} [DecidableEq α] :
    ∀ (l : List α) (s s' : α), s ∈ dedupF l → s' ∈ dedupF l →
      idxOf l s < idxOf l s' →
      idxOf (dedupF l) s < idxOf (dedupF l) s' := by
  intro l
  induction l with
  | nil => intro s s' h; simp [dedupF] at h
  | cons a l ih =>
    intro s s' hs hs' hidx
    simp only [dedupF] at hs hs' ⊢
    by_cases hsa : s = a
    · subst hsa
      have hne : s' ≠ s := by
        intro h
        subst h
        exact lt_irrefl _ hidx
      rw [idxOf_cons_self, idxOf_cons_ne _ _ hne]
      omega
    · by_cases hs'a : s' = a
      · subst hs'a
        rw [idxOf_cons_self] at hidx
        omega
      · have hsm : s ∈ (dedupF l).filter (fun y => y != a) := by
          rcases List.mem_cons.mp hs with h | h
          · exact absurd h hsa
          · exact h
        have hs'm : s' ∈ (dedupF l).filter (fun y => y != a) := by
          rcases List.mem_cons.mp hs' with h | h
          · exact absurd h hs'a
          · exact h
        have hlt : idxOf l s < idxOf l s' := by
          rw [idxOf_cons_ne _ _ hsa,
            idxOf_cons_ne _ _ hs'a] at hidx
          omega
        have hd := ih s s' (List.mem_of_mem_filter hsm)
          (List.mem_of_mem_filter hs'm) hlt
        have hf := indexOf_filter_lt (fun y => y != a) (dedupF l) s s'
          hsm hs'm hd
        rw [idxOf_cons_ne _ _ hsa,
          idxOf_cons_ne _ _ hs'a]
        omega

theorem mem_take_of_pair_sublist {α : Type} [DecidableEq α] :
    ∀ (L : List α) (n : Nat) (s s' : α), L.Nodup → [s, s'] <+ L →
      s' ∈ L.take n → s ∈ L.take n := by
  intro L
  induction L with
  | nil =>
    intro n s s' _ _ h
    simp at h
  | cons a L ih =>
    intro n s s' hnd hsub htake
    cases n with
    | zero => simp at htake
    | succ n =>
      rw [List.take_succ_cons] at htake ⊢
      by_cases hsa : s = a
      · simp [hsa]
      · have hsub' : [s, s'] <+ L := by
          cases hsub with
          | cons _ h => exact h
          | cons₂ _ h => exact absurd rfl hsa
        have hs'a : s' ≠ a := by
          intro h
          subst h
          refine (List.nodup_cons.mp hnd).1 (hsub'.subset ?_)
          simp
        have htake' : s' ∈ L.take n := by
          rcases List.mem_cons.mp htake with h | h
          · exact absurd h hs'a
          · exact h
        exact List.mem_cons_of_mem a
          (ih n s s' (List.nodup_cons.mp hnd).2 hsub' htake')

theorem mem_take_of_score_gt (t : Str) :
    ∀ (L : List Str) (n : Nat) (s s' : Str), L.Sorted (rScore t) → s ∈ L →
      s' ∈ L.take n → scoreOf t s' < scoreOf t s → s ∈ L.take n := by
  intro L n s s' hsort hs htake hlt
  by_contra hns
  have hdrop : s ∈ L.drop n := by
    rcases List.mem_append.mp (by rw [List.take_append_drop n L]; exact hs)
      with h | h
    · exact absurd h hns
    · exact h
  have hpw : List.Pairwise (rScore t) (L.take n ++ L.drop n) := by
    rw [List.take_append_drop n L]
    exact hsort
  have hcross := (List.pairwise_append.mp hpw).2.2
  have := hcross s' htake s hdrop
  unfold rScore at this
  exact absurd hlt (not_lt.mpr this)

theorem sublist_of_pairwise_idx {α : Type} [DecidableEq α] :
    ∀ (l u : List α), (∀ x ∈ u, x ∈ l) →
      u.Pairwise (fun a b => idxOf l a < idxOf l b) → u <+ l := by
  intro l
  induction l with
  | nil =>
    intro u hmem _
    cases u with
    | nil => exact List.Sublist.refl _
    | cons x xs => exact absurd (hmem x (by simp)) (List.not_mem_nil x)
  | cons c l ih =>
    intro u hmem hpw
    cases u with
    | nil => exact List.nil_sublist _
    | cons x xs =>
      by_cases hxc : x = c
      · subst hxc
        refine List.Sublist.cons₂ x (ih xs ?_ ?_)
        · intro y hy
          have hylt := (List.pairwise_cons.mp hpw).1 y hy
          rw [idxOf_cons_self] at hylt
          have hyne : y ≠ x := by
            intro h
            subst h
            rw [idxOf_cons_self] at hylt
            omega
          have hym := hmem y (List.mem_cons_of_mem x hy)
          exact (List.mem_cons.mp hym).resolve_left hyne
        · refine ((List.pairwise_cons.mp hpw).2).imp_of_mem ?_
          intro a b ha hb hab
          have halt := (List.pairwise_cons.mp hpw).1 a ha
          rw [idxOf_cons_self] at halt
          have hane : a ≠ x := by
            intro h
            subst h
            rw [idxOf_cons_self] at halt
            omega
          have hblt := (List.pairwise_cons.mp hpw).1 b hb
          rw [idxOf_cons_self] at hblt
          have hbne : b ≠ x := by
            intro h
            subst h
            rw [idxOf_cons_self] at hblt
            omega
          rw [idxOf_cons_ne _ _ hane,
            idxOf_cons_ne _ _ hbne] at hab
          omega
      · have hnec : ∀ y ∈ x :: xs, y ≠ c := by
          intro y hy
          rcases List.mem_cons.mp hy with rfl | hy'
          · exact hxc
          · have hylt := (List.pairwise_cons.mp hpw).1 y hy'
            intro h
            subst h
            rw [idxOf_cons_self] at hylt
            omega
        have hall : ∀ y ∈ x :: xs, y ∈ l := by
          intro y hy
          exact (List.mem_cons.mp (hmem y hy)).resolve_left (hnec y hy)
        refine List.Sublist.cons c (ih (x :: xs) hall ?_)
        refine hpw.imp_of_mem ?_
        intro a b ha hb hab
        rw [idxOf_cons_ne _ _ (hnec a ha),
          idxOf_cons_ne _ _ (hnec b hb)] at hab
        omega

theorem filter_orderedInsert_pos {α : Type} (r : α → α → Prop) [DecidableRel r]
    (p : α → Bool) (a : α) (hpa : p a = true) :
    ∀ L : List α, (∀ y ∈ L, p y = true → r a y) →
      (L.orderedInsert r a).filter p = a :: L.filter p := by
  intro L
  induction L with
  | nil =>
    intro _
    simp [List.orderedInsert, hpa]
  | cons b L ih =>
    intro h
    simp only [List.orderedInsert]
    by_cases hr : r a b
    · rw [if_pos hr]
      rw [List.filter_cons_of_pos hpa]
    · rw [if_neg hr]
      have hpb : p b = false := by
        cases hpb : p b with
        | true => exact absurd (h b (by simp) hpb) hr
        | false => rfl
      rw [List.filter_cons_of_neg (by simp [hpb]),
        List.filter_cons_of_neg (by simp [hpb])]
      exact ih (fun y hy hpy => h y (List.mem_cons_of_mem b hy) hpy)

theorem filter_orderedInsert_neg {α : Type} (r : α → α → Prop) [DecidableRel r]
    (p : α → Bool) (a : α) (hpa : p a = false) :
    ∀ L : List α, (L.orderedInsert r a).filter p = L.filter p := by
  intro L
  induction L with
  | nil => simp [List.orderedInsert, hpa]
  | cons b L ih =>
    simp only [List.orderedInsert]
    by_cases hr : r a b
    · rw [if_pos hr, List.filter_cons_of_neg (by simp [hpa])]
    · rw [if_neg hr]
      cases hpb : p b with
      | true =>
        rw [List.filter_cons_of_pos hpb, List.filter_cons_of_pos hpb, ih]
      | false =>
        rw [List.filter_cons_of_neg (by simp [hpb]),
          List.filter_cons_of_neg (by simp [hpb]), ih]

/-- The stable descending sort leaves the relative order of equal-score
sentences unchanged. -/
theorem filter_score_insertionSort (t : Str) (c : ℚ) :
    ∀ l : List Str,
      (List.insertionSort (rScore t) l).filter (fun s => scoreOf t s == c) =
        l.filter (fun s => scoreOf t s == c) := by
  intro l
  induction l with
  | nil => rfl
  | cons a l ih =>
    simp only [List.insertionSort]
    by_cases hpa : (scoreOf t a == c) = true
    · rw [filter_orderedInsert_pos (rScore t) _ a hpa _ ?side, ih,
        List.filter_cons_of_pos (p := fun s => scoreOf t s == c) hpa]
      case side =>
        intro y _ hpy
        unfold rScore
        rw [beq_iff_eq.mp hpy, beq_iff_eq.mp hpa]
    · rw [filter_orderedInsert_neg (rScore t) _ a (Bool.eq_false_iff.mpr hpa),
        ih, List.filter_cons_of_neg (p := fun s => scoreOf t s == c) hpa]

theorem scoreOf_eq_zero_of_no_words (t : Str) (h : fastWords t = [])
    (s : Str) : scoreOf t s = 0 := by
  unfold scoreOf
  have hz : ((fastWords s).map (wordCount t)).sum = 0 := by
    apply List.sum_eq_zero
    intro c hc
    obtain ⟨w, _, rfl⟩ := List.mem_map.mp hc
    unfold wordCount
    rw [h]
    simp
  rw [hz]
  simp [Rat.mkRat_eq_div]

theorem indexOf_lt_of_mem_take {α : Type} [DecidableEq α] :
    ∀ (l : List α) (n : Nat) (x : α), x ∈ l.take n → idxOf l x < n := by
  intro l
  induction l with
  | nil =>
    intro n x h
    simp at h
  | cons a l ih =>
    intro n x h
    cases n with
    | zero => simp at h
    | succ n =>
      rw [List.take_succ_cons] at h
      by_cases hxa : x = a
      · subst hxa
        rw [idxOf_cons_self]
        omega
      · have hx : x ∈ l.take n := (List.mem_cons.mp h).resolve_left hxa
        rw [idxOf_cons_ne _ _ hxa]
        have := ih n x hx
        omega

theorem mem_take_of_indexOf_lt {α : Type} [DecidableEq α] :
    ∀ (l : List α) (n : Nat) (x : α), x ∈ l → idxOf l x < n →
      x ∈ l.take n := by
  intro l
  induction l with
  | nil =>
    intro n x h
    cases h
  | cons a l ih =>
    intro n x hx hidx
    cases n with
    | zero =>
      exfalso
      omega
    | succ n =>
      rw [List.take_succ_cons]
      by_cases hxa : x = a
      · subst hxa
        simp
      · have hxm : x ∈ l := (List.mem_cons.mp hx).resolve_left hxa
        rw [idxOf_cons_ne _ _ hxa] at hidx
        exact List.mem_cons_of_mem a (ih n x hxm (by omega))

/-- Equal-score tie-break: if `s` sits earlier than `s'` among the
sentences and scores tie, selecting `s'` forces selecting `s`. -/
theorem tie_stability (t : Str) (n : Nat) (s s' : Str)
    (hs : s ∈ sKeys t) (hs' : s' ∈ sKeys t)
    (heq : scoreOf t s = scoreOf t s')
    (hidx : idxOf (fastSentences t) s < idxOf (fastSentences t) s')
    (htop : s' ∈ topKeys t n) : s ∈ topKeys t n := by
  have hfs : s ∈ (fastSentences t).filter scorable := mem_dedupF.mp hs
  have hfs' : s' ∈ (fastSentences t).filter scorable := mem_dedupF.mp hs'
  have hidxf := indexOf_filter_lt scorable (fastSentences t) s s' hfs hfs' hidx
  have hidxd := indexOf_dedupF_lt ((fastSentences t).filter scorable) s s'
    hs hs' hidxf
  have hpair : [s, s'] <+ sKeys t :=
    pair_sublist_of_indexOf_lt (sKeys t) s s' hs hs' hidxd
  have hps : (fun x => scoreOf t x == scoreOf t s) s = true := by simp
  have hps' : (fun x => scoreOf t x == scoreOf t s) s' = true := by
    simp [heq.symm]
  have hfpair : [s, s'] <+
      (sKeys t).filter (fun x => scoreOf t x == scoreOf t s) := by
    have := hpair.filter (fun x => scoreOf t x == scoreOf t s)
    rwa [List.filter_cons_of_pos (p := fun x => scoreOf t x == scoreOf t s) hps,
      List.filter_cons_of_pos (p := fun x => scoreOf t x == scoreOf t s) hps',
      List.filter_nil] at this
  have hLpair : [s, s'] <+ List.insertionSort (rScore t) (sKeys t) := by
    have hmid : [s, s'] <+ (List.insertionSort (rScore t) (sKeys t)).filter
        (fun x => scoreOf t x == scoreOf t s) := by
      rw [filter_score_insertionSort t (scoreOf t s) (sKeys t)]
      exact hfpair
    exact hmid.trans (List.filter_sublist _)
  have hnodup : (List.insertionSort (rScore t) (sKeys t)).Nodup :=
    ((List.perm_insertionSort (rScore t) (sKeys t)).nodup_iff).mpr
      (dedupF_nodup _)
  exact mem_take_of_pair_sublist _ n s s' hnodup hLpair htop

/-- Strict-score priority: a strictly higher-scoring sentence is always
selected when a lower-scoring one is. -/
theorem strict_priority (t : Str) (n : Nat) (s s' : Str)
    (hs : s ∈ sKeys t) (htop : s' ∈ topKeys t n)
    (hgt : scoreOf t s' < scoreOf t s) : s ∈ topKeys t n :=
  mem_take_of_score_gt t (List.insertionSort (rScore t) (sKeys t)) n s s'
    (List.sorted_insertionSort _ _)
    ((List.mem_insertionSort _).mpr hs) htop hgt

theorem idxOf_inj {α : Type} [DecidableEq α] :
    ∀ (l : List α) (x y : α), x ∈ l → y ∈ l → idxOf l x = idxOf l y →
      x = y := by
  intro l
  induction l with
  | nil => intro x y h; cases h
  | cons a l ih =>
    intro x y hx hy heq
    by_cases hxa : x = a
    · by_cases hya : y = a
      · rw [hxa, hya]
      · subst hxa
        rw [idxOf_cons_self, idxOf_cons_ne _ _ hya] at heq
        omega
    · by_cases hya : y = a
      · subst hya
        rw [idxOf_cons_ne _ _ hxa, idxOf_cons_self] at heq
        omega
      · rw [idxOf_cons_ne _ _ hxa, idxOf_cons_ne _ _ hya] at heq
        exact ih x y ((List.mem_cons.mp hx).resolve_left hxa)
          ((List.mem_cons.mp hy).resolve_left hya) (by omega)

theorem topKeys_nodup (t : Str) (n : Nat) : (topKeys t n).Nodup := by
  have h1 : (List.insertionSort (rScore t) (sKeys t)).Nodup :=
    ((List.perm_insertionSort (rScore t) (sKeys t)).nodup_iff).mpr
      (dedupF_nodup _)
  exact h1.sublist (List.take_sublist _ _)

theorem scoredSelected_sublist (t : Str) (n : Nat) :
    List.insertionSort (rIdx t) (topKeys t n) <+ fastSentences t := by
  have hmemS : ∀ x ∈ List.insertionSort (rIdx t) (topKeys t n),
      x ∈ fastSentences t := by
    intro x hx
    rw [List.mem_insertionSort] at hx
    have hx2 : x ∈ List.insertionSort (rScore t) (sKeys t) :=
      (List.take_sublist _ _).subset hx
    exact (sKeys_sublist t).subset ((List.mem_insertionSort _).mp hx2)
  have hnodupS : (List.insertionSort (rIdx t) (topKeys t n)).Nodup :=
    ((List.perm_insertionSort (rIdx t) (topKeys t n)).nodup_iff).mpr
      (topKeys_nodup t n)
  have hsorted : List.Pairwise (rIdx t)
      (List.insertionSort (rIdx t) (topKeys t n)) :=
    List.sorted_insertionSort (rIdx t) (topKeys t n)
  refine sublist_of_pairwise_idx _ _ hmemS ?_
  refine (hsorted.and hnodupS).imp_of_mem ?_
  intro a b ha hb hab
  obtain ⟨hle, hne⟩ := hab
  have hij : idxOf (fastSentences t) a ≠ idxOf (fastSentences t) b := by
    intro h
    exact hne (idxOf_inj _ a b (hmemS a ha) (hmemS b hb) h)
  unfold rIdx at hle
  omega

end SummarizeInfra

/-- C1 (amended): `summarizeText(text, n)` is the single-space join of
the selected sentence list; that list is a sub-sequence of the sentence
split (so the selection keeps the original relative order), it has at
most `n` entries, each selected sentence appears verbatim in the input
after HTML-tag removal and entity unescaping, and selection prefers a
strictly higher-scoring sentence and breaks score ties in favour of
the sentence whose first occurrence is earlier. -/
theorem summarizeText_spec (t : Str) (n : Nat) :
    summarizeText t n = joinSp (summarizeSelected t n) ∧
    summarizeSelected t n <+ fastSentences t ∧
    (summarizeSelected t n).length ≤ n ∧
    (∀ s ∈ summarizeSelected t n, s <:+: normalizeHtml t) ∧
    (∀ s s', s ∈ sKeys t → s' ∈ sKeys t → s' ∈ summarizeSelected t n →
      (scoreOf t s' < scoreOf t s ∨
        (scoreOf t s = scoreOf t s' ∧
          idxOf (fastSentences t) s < idxOf (fastSentences t) s')) →
      s ∈ summarizeSelected t n) := by
  have hsub : summarizeSelected t n <+ fastSentences t := by
    unfold summarizeSelected
    by_cases h1 : t = []
    · rw [if_pos h1]
      exact List.nil_sublist _
    rw [if_neg h1]
    by_cases h2 : fastSentences t = []
    · rw [if_pos h2]
      exact List.nil_sublist _
    rw [if_neg h2]
    by_cases h3 : fastWords t = []
    · rw [if_pos h3]
      exact List.take_sublist _ _
    rw [if_neg h3]
    by_cases h4 : sKeys t = []
    · rw [if_pos h4]
      exact List.take_sublist _ _
    rw [if_neg h4]
    exact scoredSelected_sublist t n
  have hlen : (summarizeSelected t n).length ≤ n := by
    unfold summarizeSelected
    by_cases h1 : t = []
    · rw [if_pos h1]
      simp
    rw [if_neg h1]
    by_cases h2 : fastSentences t = []
    · rw [if_pos h2]
      simp
    rw [if_neg h2]
    by_cases h3 : fastWords t = []
    · rw [if_pos h3]
      exact List.length_take_le _ _
    rw [if_neg h3]
    by_cases h4 : sKeys t = []
    · rw [if_pos h4]
      exact List.length_take_le _ _
    rw [if_neg h4]
    rw [List.length_insertionSort]
    simp only [topKeys]
    exact List.length_take_le _ _
  refine ⟨rfl, hsub, hlen,
    fun s hs => fastSentences_segment t s (hsub.subset hs), ?_⟩
  intro s s' hsK hs'K hsel hprio
  unfold summarizeSelected at hsel ⊢
  by_cases h1 : t = []
  · rw [if_pos h1] at hsel
    cases hsel
  rw [if_neg h1] at hsel ⊢
  by_cases h2 : fastSentences t = []
  · rw [if_pos h2] at hsel
    cases hsel
  rw [if_neg h2] at hsel ⊢
  by_cases h3 : fastWords t = []
  · rw [if_pos h3] at hsel ⊢
    rcases hprio with hlt | ⟨heq, hidx⟩
    · exfalso
      rw [scoreOf_eq_zero_of_no_words t h3 s,
        scoreOf_eq_zero_of_no_words t h3 s'] at hlt
      exact lt_irrefl _ hlt
    · have hsmem : s ∈ fastSentences t := (sKeys_sublist t).subset hsK
      have hidx' := indexOf_lt_of_mem_take (fastSentences t) n s' hsel
      exact mem_take_of_indexOf_lt _ n s hsmem (by omega)
  rw [if_neg h3] at hsel ⊢
  by_cases h4 : sKeys t = []
  · exfalso
    rw [h4] at hsK
    cases hsK
  rw [if_neg h4] at hsel ⊢
  rw [List.mem_insertionSort] at hsel ⊢
  rcases hprio with hlt | ⟨heq, hidx⟩
  · exact strict_priority t n s s' hsK hsel hlt
  · exact tie_stability t n s s' hsK hs'K heq hidx hsel

/-- C1 counterexample: the claim as stated fails — with an entity
reference in the input, a sentence of the summary is not verbatim in
the raw input text (the selected sentence contains the unescaped `&`,
the input only `&amp;`). -/
theorem summarize_verbatim_counterexample :
    ∃ s ∈ summarizeSelected
        ("ab&amp;cd is here now. second phrase sentence done.".data) 2,
      ¬ s <:+: ("ab&amp;cd is here now. second phrase sentence done.".data) := by
  refine ⟨"ab&cd is here now.".data, by decide, by decide⟩

theorem summarizeText_spec_witness :
    ("cat cat cat cat.".data) ∈ summarizeSelected
      ("cat cat cat cat. cat dog fox pig. red blue green yellow.".data) 2 :=
  (summarizeText_spec
      ("cat cat cat cat. cat dog fox pig. red blue green yellow.".data)
      2).2.2.2.2
    ("cat cat cat cat.".data) ("cat dog fox pig.".data)
    (by decide) (by decide) (by decide) (Or.inl (by decide))

/-- C10 counterexample: a duplicated sentence made only of stopwords
drives the summarizer into the degraded `sentences[:n]` path, which
returns the duplicate twice — the output contains two identical
sentences. -/
theorem summarize_dup_counterexample :
    (fastSentences ("It is so. It is so.".data)).count ("It is so.".data)
      = 2 ∧
    (summarizeSelected ("It is so. It is so.".data) 2).count
      ("It is so.".data) = 2 ∧
    summarizeText ("It is so. It is so.".data) 2 =
      ("It is so. It is so.".data) := by
  exact ⟨by decide, by decide, by decide⟩

/-- C10 (amended): on the frequency-scored path (some non-stopword
word exists and some sentence is scorable) the output sentences are
pairwise distinct, because scores are keyed by the sentence string;
on the degraded path the first `n` sentences are returned verbatim,
so a duplicated sentence can appear twice. -/
theorem summarize_nodup_amended (t : Str) (n : Nat) :
    (fastWords t ≠ [] → sKeys t ≠ [] → (summarizeSelected t n).Nodup) ∧
    ((fastWords t = [] ∨ sKeys t = []) →
      summarizeSelected t n = (fastSentences t).take n) := by
  constructor
  · intro h3 h4
    unfold summarizeSelected
    by_cases h1 : t = []
    · rw [if_pos h1]
      exact List.nodup_nil
    rw [if_neg h1]
    by_cases h2 : fastSentences t = []
    · rw [if_pos h2]
      exact List.nodup_nil
    rw [if_neg h2, if_neg h3, if_neg h4]
    exact ((List.perm_insertionSort (rIdx t) (topKeys t n)).nodup_iff).mpr
      (topKeys_nodup t n)
  · intro hor
    unfold summarizeSelected
    by_cases h1 : t = []
    · rw [if_pos h1]
      subst h1
      rw [show fastSentences [] = [] from rfl]
      simp
    rw [if_neg h1]
    by_cases h2 : fastSentences t = []
    · rw [if_pos h2, h2]
      simp
    rw [if_neg h2]
    rcases hor with h3 | h4
    · rw [if_pos h3]
    · by_cases h3 : fastWords t = []
      · rw [if_pos h3]
      · rw [if_neg h3, if_pos h4]

theorem summarize_nodup_amended_witness :
    (summarizeSelected ("cat cat cat cat. cat dog fox pig.".data) 2).Nodup ∧
    summarizeSelected ("It is so. It is so.".data) 2 =
      (fastSentences ("It is so. It is so.".data)).take 2 :=
  ⟨(summarize_nodup_amended ("cat cat cat cat. cat dog fox pig.".data) 2).1
      (by decide) (by decide),
   (summarize_nodup_amended ("It is so. It is so.".data) 2).2
      (Or.inl (by decide))⟩

end News
